import Mathlib

/-!
# fast-hdr: LUT construction and the streaming engine

A shallow embedding of `gen/hdr_sdr_gen.cpp` (the LUT builder and the pixel
transform chain) and `src/hdr_sdr.cpp` (the thread-safe queue, the LUT lookup
and the three-stage streaming loop), with the properties of the specification
stated and settled over it.

Conventions of the embedding.
* Bytes (`img_uint = uint8_t`) and indices (`size_t`, `int`) are natural
  numbers; a store through an `img_uint` pointer reduces modulo `2^8`.
* A block of memory (`img_uint *`) is a `List Nat`; `rd` is a load and `wr` a
  store at an offset.
* `double` arithmetic is read over the exact rationals, decimal constants as
  the decimals written in the source.
-/

namespace FastHdr

/-! ## User defines and the LUT geometry (identical in both source files) -/

/-- Source: `#define IMG_BITS 8` -/
def IMG_BITS : Nat := 8

/-- Source: `#define IMG_INT_MAX ((1 << IMG_BITS) - 1)` -/
def IMG_INT_MAX : Nat := (1 <<< IMG_BITS) - 1

/-- Source: `#define LUTD_BITS IMG_BITS` -/
def LUTD_BITS : Nat := IMG_BITS

/-- Source: `#define LUTD_CHNLS 3` -/
def LUTD_CHNLS : Nat := 3

/-- Source: `#define LUTD_RES (1 << LUTD_BITS)` -/
def LUTD_RES : Nat := 1 <<< LUTD_BITS

/-- Source: `#define LUTD_SIZE (LUTD_RES * LUTD_RES * LUTD_RES * LUTD_CHNLS)` -/
def LUTD_SIZE : Nat := LUTD_RES * LUTD_RES * LUTD_RES * LUTD_CHNLS

/-- Source: `#define LUTD_Y_STRIDE(y) (y << (0 * LUTD_BITS))` -/
def LUTD_Y_STRIDE (y : Nat) : Nat := y <<< (0 * LUTD_BITS)

/-- Source: `#define LUTD_U_STRIDE(u) (u << (1 * LUTD_BITS))` -/
def LUTD_U_STRIDE (u : Nat) : Nat := u <<< (1 * LUTD_BITS)

/-- Source: `#define LUTD_V_STRIDE(v) (v << (2 * LUTD_BITS))` -/
def LUTD_V_STRIDE (v : Nat) : Nat := v <<< (2 * LUTD_BITS)

/-- Source: `#define LUTD_C_STRIDE(c) (c << (3 * LUTD_BITS))` -/
def LUTD_C_STRIDE (c : Nat) : Nat := c <<< (3 * LUTD_BITS)

/-- The expression `ind_lutd` of both `gen_lutd` and `trans_lutd`:
`LUTD_Y_STRIDE(y) + LUTD_U_STRIDE(u) + LUTD_V_STRIDE(v)`. -/
def ind_lutd (y u v : Nat) : Nat :=
  LUTD_Y_STRIDE y + LUTD_U_STRIDE u + LUTD_V_STRIDE v

/-- The table position `ind_lutd + LUTD_C_STRIDE(c)` used for channel `c`. -/
def lutd_index (y u v c : Nat) : Nat :=
  ind_lutd y u v + LUTD_C_STRIDE c

/-! ## Memory blocks -/

/-- Load `m[i]`. -/
def rd (m : List Nat) (i : Nat) : Nat := m.getD i 0

/-- Store `m[i] = x`. -/
def wr (m : List Nat) (i : Nat) (x : Nat) : List Nat := m.set i x

/-! ## The LUT builder (`gen/hdr_sdr_gen.cpp`) -/

/-- The effect of a pixel transform on the three samples it is handed: the new
`(y, u, v)` as a function of the old ones. -/
abbrev PixelFn := Nat → Nat → Nat → Nat × Nat × Nat

/-- Channel `c` of a pixel: 0 = Y, 1 = U, 2 = V. -/
def chan (c : Nat) (p : Nat × Nat × Nat) : Nat :=
  if c = 0 then p.1 else if c = 1 then p.2.1 else p.2.2

/-- A call `proc(y, u, v)` on three cells of the block `m`: the samples are
loaded from `*y`, `*u`, `*v` (by `yuv_rgb`), the transform is evaluated on
locals, and the results are stored to `*y`, `*u`, `*v` in this order (by
`rgb_yuv`). -/
def proc_call (proc : PixelFn) (m : List Nat) (y u v : Nat) : List Nat :=
  let r := proc (rd m y) (rd m u) (rd m v)
  wr (wr (wr m y r.1) u r.2.1) v r.2.2

/-- The body of the innermost loop of `gen_lutd` for the loop variables
`v`, `u`, `y`. -/
def gen_lutd_body (proc : PixelFn) (lutd : List Nat) (v u y : Nat) : List Nat :=
  let ind := ind_lutd y u v
  -- Get LUTD Pointers
  let y_lutd := ind + LUTD_C_STRIDE 0
  let u_lutd := ind + LUTD_C_STRIDE 1
  let v_lutd := ind + LUTD_C_STRIDE 2
  -- Set LUTD Values to Default (a `size_t` stored to a `uint8_t`)
  let lutd := wr lutd y_lutd (y % 2 ^ IMG_BITS)
  let lutd := wr lutd u_lutd (u % 2 ^ IMG_BITS)
  let lutd := wr lutd v_lutd (v % 2 ^ IMG_BITS)
  -- Process Default LUTD Values
  proc_call proc lutd y_lutd u_lutd v_lutd

/-- The three nested loops of `gen_lutd`, `v` outermost and `y` innermost, each
running over `0 .. IMG_INT_MAX` inclusive, executed in program order. -/
def gen_lutd (proc : PixelFn) (lutd : List Nat) : List Nat :=
  (List.range (IMG_INT_MAX + 1)).foldl (fun lutd v =>
    (List.range (IMG_INT_MAX + 1)).foldl (fun lutd u =>
      (List.range (IMG_INT_MAX + 1)).foldl (fun lutd y =>
        gen_lutd_body proc lutd v u y) lutd) lutd) lutd

/-- The iteration space of `gen_lutd` as the list of `(v, u, y)` in program
order. -/
def gen_lutd_iters : List (Nat × Nat × Nat) :=
  (List.range (IMG_INT_MAX + 1)).flatMap fun v =>
    (List.range (IMG_INT_MAX + 1)).flatMap fun u =>
      (List.range (IMG_INT_MAX + 1)).map fun y => (v, u, y)

/-- The loop body of `gen_lutd` executed once for every entry of `order`, in
the order given: the schedule an `omp parallel for` team may produce. -/
def gen_lutd_sched (proc : PixelFn) (order : List (Nat × Nat × Nat))
    (lutd : List Nat) : List Nat :=
  order.foldl (fun lutd t => gen_lutd_body proc lutd t.1 t.2.1 t.2.2) lutd

/-! ## LUT lookup and frame processing (`src/hdr_sdr.cpp`) -/

/-- Source: `#define PAY_SIZE 1`: images per processing payload. -/
def PAY_SIZE : Nat := 1

/-- Source: `#define BUFFER_SIZE 16`: payloads kept in memory. -/
def BUFFER_SIZE : Nat := 16

/-- Source function `trans_lutd(y, u, v, lutd)` where the pointers `y`, `u`, `v` are the cells
`pay[y]`, `pay[u]`, `pay[v]`: the index is formed from the three samples first,
then `*y`, `*u`, `*v` are overwritten from the three cubes of the table. -/
def trans_lutd (pay : List Nat) (y u v : Nat) (lutd : List Nat) : List Nat :=
  let ind := ind_lutd (rd pay y) (rd pay u) (rd pay v)
  let pay := wr pay y (rd lutd (ind + LUTD_C_STRIDE 0))
  let pay := wr pay u (rd lutd (ind + LUTD_C_STRIDE 1))
  wr pay v (rd lutd (ind + LUTD_C_STRIDE 2))

/-- Source function `hdr_sdr(pay, size_pay, lutd)`: for every image of the payload and every
pixel position `i` of it, `y = &pay[i + 0*stride_img]`,
`v = &pay[i + 1*stride_img]`, `u = &pay[i + 2*stride_img]` and
`trans_lutd(y, u, v, lutd)`. The iterations of the inner loop are run in
program order. -/
def hdr_sdr (pay : List Nat) (size_pay : Nat) (lutd : List Nat) : List Nat :=
  (List.range PAY_SIZE).foldl (fun pay i_img =>
    let size_img := size_pay / PAY_SIZE
    let stride_img := size_img / 3
    (List.range' (i_img * size_img) stride_img).foldl (fun pay i =>
      trans_lutd pay (i + 0 * stride_img) (i + 2 * stride_img) (i + 1 * stride_img) lutd)
      pay) pay

/-- The value `hdr_sdr` stores in plane `k` (0 = Y, 1 = V, 2 = U) at pixel
position `i` of a frame `pay` of `s` pixels: the table entry of the pixel
`(y, u, v) = (pay[i], pay[i + 2s], pay[i + s])` in the cube of that plane. -/
def lut_pixel (pay : List Nat) (s : Nat) (lutd : List Nat) (i k : Nat) : Nat :=
  rd lutd (ind_lutd (rd pay i) (rd pay (i + 2 * s)) (rd pay (i + s))
    + LUTD_C_STRIDE (if k = 0 then 0 else if k = 1 then 2 else 1))

/-! ## The pixel transform chain (`gen/hdr_sdr_gen.cpp`)

`double` values are rationals. `pow` of `<math.h>` is a parameter of the
functions that call it. -/

namespace Gen

/-- Library function `std::clamp(x, lo, hi)`. -/
def clamp (x lo hi : ℚ) : ℚ := if x < lo then lo else if hi < x then hi else x

/-- Source: `#define IMG_INT_MAX_D ( (double) IMG_INT_MAX )` -/
def IMG_INT_MAX_D : ℚ := (IMG_INT_MAX : ℚ)

/-- Source function `yuv_rgb(y, u, v, buf_rgb)`: the contents of `buf_rgb` on return. -/
def yuv_rgb (y u v : Nat) : ℚ × ℚ × ℚ :=
  let c : Int := (y : Int)
  let d : Int := (u : Int) - 128
  let e : Int := (v : Int) - 128
  ( clamp (c + 1.370705 * e) 0 IMG_INT_MAX_D / IMG_INT_MAX_D,
    clamp (c - 0.698001 * d - 0.337633 * e) 0 IMG_INT_MAX_D / IMG_INT_MAX_D,
    clamp (c + 1.732446 * d) 0 IMG_INT_MAX_D / IMG_INT_MAX_D )

/-- Source: `#define c1 0.8359375` -/
def c1 : ℚ := 0.8359375

/-- Source: `#define c2 18.8515625` -/
def c2 : ℚ := 18.8515625

/-- Source: `#define c3 18.6875` -/
def c3 : ℚ := 18.6875

/-- Source: `#define m1 0.1593017578125` -/
def m1 : ℚ := 0.1593017578125

/-- Source: `#define m2 78.84375` -/
def m2 : ℚ := 78.84375

/-- The first argument of the outer `pow` of `gam_pq_lin`:
`(pow(v, 1/m2) - c1) / (c2 - c3 * pow(v, 1/m2))`. -/
def gam_pq_lin_base (pow : ℚ → ℚ → ℚ) (v : ℚ) : ℚ :=
  (pow v (1 / m2) - c1) / (c2 - c3 * pow v (1 / m2))

/-- Source function `gam_pq_lin(v)`. -/
def gam_pq_lin (pow : ℚ → ℚ → ℚ) (v : ℚ) : ℚ :=
  pow (gam_pq_lin_base pow v) (1 / m1)

/-- Source function `tm_cool(v)`. -/
def tm_cool (v : ℚ) : ℚ :=
  let v := v * 150.0
  let A : ℚ := 0.15
  let B : ℚ := 0.50
  let C : ℚ := 0.10
  let D : ℚ := 0.20
  let E : ℚ := 0.02
  let F : ℚ := 0.30
  ((v * (A * v + C * B) + D * E) / (v * (A * v + B) + D * F)) - E / F

/-- Source function `gam_lin_srgb(v)`. -/
def gam_lin_srgb (pow : ℚ → ℚ → ℚ) (v : ℚ) : ℚ :=
  if v > 0.0031308 then (1.055 * pow v (1.0 / 2.4)) - 0.055 else v * 12.92

/-- The conversion `(img_uint) x` of a `double` in `[0, 255]`: truncation. -/
def to_img_uint (x : ℚ) : Nat := (Int.toNat (Rat.floor x)) % 2 ^ IMG_BITS

/-- Source function `rgb_yuv(buf_rgb, y, u, v)`: the values stored to `*y`, `*u`, `*v`. -/
def rgb_yuv (buf_rgb : ℚ × ℚ × ℚ) : Nat × Nat × Nat :=
  let r := buf_rgb.1 * 255.0
  let g := buf_rgb.2.1 * 255.0
  let b := buf_rgb.2.2 * 255.0
  ( to_img_uint (clamp (0.257 * r + 0.504 * g + 0.098 * b + 16.0) 0 IMG_INT_MAX_D),
    to_img_uint (clamp (-0.148 * r - 0.291 * g + 0.439 * b + 128.0) 0 IMG_INT_MAX_D),
    to_img_uint (clamp (0.439 * r - 0.368 * g - 0.071 * b + 128.0) 0 IMG_INT_MAX_D) )

/-- The three per-channel loops of `proc` applied to `buf_rgb`. -/
def proc_rgb (pow : ℚ → ℚ → ℚ) (buf_rgb : ℚ × ℚ × ℚ) : ℚ × ℚ × ℚ :=
  let f := fun x => gam_lin_srgb pow (tm_cool (gam_pq_lin pow x))
  (f buf_rgb.1, f buf_rgb.2.1, f buf_rgb.2.2)

/-- Source function `proc(y, u, v)`: the new samples as a function of the old ones. -/
def proc (pow : ℚ → ℚ → ℚ) : PixelFn :=
  fun y u v => rgb_yuv (proc_rgb pow (yuv_rgb y u v))

end Gen

/-! ## `ThreadQ` (`src/hdr_sdr.cpp`)

The member functions run under `queue_lock`, so each call is one atomic
transition of the queue contents. -/

/-- Source: `class ThreadQ<T>`: the contents of `queue_unsafe`, front first. -/
structure ThreadQ (T : Type) where
  queue_unsafe : List T

namespace ThreadQ

variable {T : Type}

/-- The constructor `ThreadQ()`: an empty `queue_unsafe`. -/
def new : ThreadQ T := ⟨[]⟩

/-- Source function `push(v)`: `queue_unsafe.push(v)`. -/
def push (q : ThreadQ T) (v : T) : ThreadQ T := ⟨q.queue_unsafe ++ [v]⟩

/-- Source function `pop()`: the value returned and the queue left behind; `none` while
`queue_unsafe.empty()` holds, when the caller stays in the wait loop. -/
def pop (q : ThreadQ T) : Option (T × ThreadQ T) :=
  match q.queue_unsafe with
  | [] => none
  | v :: rest => some (v, ⟨rest⟩)

end ThreadQ

/-- A call of a member function of `ThreadQ`. -/
inductive QOp (T : Type) where
  | push (v : T)
  | pop

namespace QOp

variable {T : Type}

/-- Run a sequence of calls from the queue `q`. The result is the final queue
and the values returned by the calls of `pop`, in call order, and `none` when
some `pop` meets an empty queue. -/
def run : List (QOp T) → ThreadQ T → Option (ThreadQ T × List T)
  | [], q => some (q, [])
  | QOp.push v :: ops, q => run ops (q.push v)
  | QOp.pop :: ops, q =>
    match q.pop with
    | none => none
    | some (v, q') =>
      match run ops q' with
      | none => none
      | some (q'', outs) => some (q'', v :: outs)

/-- The arguments of the calls of `push`, in call order. -/
def pushed : List (QOp T) → List T
  | [] => []
  | QOp.push v :: ops => v :: pushed ops
  | QOp.pop :: ops => pushed ops

/-- The number of calls of `pop`. -/
def pops : List (QOp T) → Nat
  | [] => 0
  | QOp.push _ :: ops => pops ops
  | QOp.pop :: ops => pops ops + 1

end QOp

/-! ## The streaming engine (`src/hdr_sdr.cpp`)

A payload pointer `buf_pay + i*size_pay` is the offset `i*size_pay` into the
one allocation `buf_pay`. -/

/-- The `size` bytes at `pay`: what `cout.write((char*) pay, size)` emits. -/
def load (mem : List Nat) (pay size : Nat) : List Nat :=
  (List.range size).map fun k => rd mem (pay + k)

/-- The block after the bytes `data` are copied to `pay[0 .. data.length)`. -/
def store (mem : List Nat) (pay : Nat) (data : List Nat) : List Nat :=
  mem.mapIdx fun a x => if pay ≤ a ∧ a < pay + data.length then rd data (a - pay) else x

/-- The position of a stage thread in the body of its `while (true)` loop:
before `GET` (the `pop`), before `DO` holding the payload `pay`, or before
`PUT` (the `push`) holding `pay`. -/
inductive Stage where
  | get
  | work (pay : Nat)
  | put (pay : Nat)

/-- The payloads a stage holds in its local `pay`. -/
def Stage.held : Stage → List Nat
  | Stage.get => []
  | Stage.work pay => [pay]
  | Stage.put pay => [pay]

/-- The state shared by the three threads started by `main`. -/
structure Engine where
  /-- The argument `size_pay` of the three threads. -/
  size_pay : Nat
  /-- The table `lutd` after `read_lutd`. -/
  lutd : List Nat
  /-- The contents of the allocation `buf_pay`. -/
  buf_pay : List Nat
  /-- Pointers to read payloads to. -/
  queue_read : ThreadQ Nat
  /-- Pointers to process payloads in. -/
  queue_proc : ThreadQ Nat
  /-- Pointers to write payloads from. -/
  queue_write : ThreadQ Nat
  /-- The thread running `read_stdin`. -/
  th1_reader : Stage
  /-- The thread running `proc`. -/
  th2_proc : Stage
  /-- The thread running `write_stdout`. -/
  th3_writer : Stage
  /-- The bytes of standard input not yet extracted. -/
  cin : List Nat
  /-- The payloads written to standard output, one entry per `cout.write`. -/
  cout : List (List Nat)

/-- One statement of one of the three stage loops. -/
inductive Action where
  | read_stdin_get
  | read_stdin_do
  | read_stdin_put
  | proc_get
  | proc_do
  | proc_put
  | write_stdout_get
  | write_stdout_do
  | write_stdout_put

namespace Engine

/-- The effect of one statement; `none` when the thread is not at that
statement or its `pop` finds the queue empty.

`cin.read(pay, size_pay)` extracts the bytes available, at most `size_pay`,
into the front of the payload and leaves the rest of it as it was; at the end
of the input it extracts nothing. -/
def step (s : Engine) : Action → Option Engine
  | Action.read_stdin_get =>
    match s.th1_reader, s.queue_read.pop with
    | Stage.get, some (pay, q) => some { s with queue_read := q, th1_reader := Stage.work pay }
    | _, _ => none
  | Action.read_stdin_do =>
    match s.th1_reader with
    | Stage.work pay =>
      some { s with
        buf_pay := store s.buf_pay pay (s.cin.take s.size_pay)
        cin := s.cin.drop s.size_pay
        th1_reader := Stage.put pay }
    | _ => none
  | Action.read_stdin_put =>
    match s.th1_reader with
    | Stage.put pay => some { s with queue_proc := s.queue_proc.push pay, th1_reader := Stage.get }
    | _ => none
  | Action.proc_get =>
    match s.th2_proc, s.queue_proc.pop with
    | Stage.get, some (pay, q) => some { s with queue_proc := q, th2_proc := Stage.work pay }
    | _, _ => none
  | Action.proc_do =>
    match s.th2_proc with
    | Stage.work pay =>
      some { s with
        buf_pay := store s.buf_pay pay (hdr_sdr (load s.buf_pay pay s.size_pay) s.size_pay s.lutd)
        th2_proc := Stage.put pay }
    | _ => none
  | Action.proc_put =>
    match s.th2_proc with
    | Stage.put pay => some { s with queue_write := s.queue_write.push pay, th2_proc := Stage.get }
    | _ => none
  | Action.write_stdout_get =>
    match s.th3_writer, s.queue_write.pop with
    | Stage.get, some (pay, q) => some { s with queue_write := q, th3_writer := Stage.work pay }
    | _, _ => none
  | Action.write_stdout_do =>
    match s.th3_writer with
    | Stage.work pay =>
      some { s with
        cout := s.cout ++ [load s.buf_pay pay s.size_pay]
        th3_writer := Stage.put pay }
    | _ => none
  | Action.write_stdout_put =>
    match s.th3_writer with
    | Stage.put pay => some { s with queue_read := s.queue_read.push pay, th3_writer := Stage.get }
    | _ => none

/-- Run a schedule: the statements of the three threads in the order in which
they take effect. -/
def run : List Action → Engine → Option Engine
  | [], s => some s
  | a :: acts, s =>
    match s.step a with
    | none => none
    | some t => run acts t

/-- The states the engine can be in after some interleaving of its threads. -/
def Reachable (s0 s : Engine) : Prop := ∃ acts, run acts s0 = some s

/-- Every payload pointer in the engine, queue by queue and stage by stage. -/
def tokens (s : Engine) : List Nat :=
  s.queue_read.queue_unsafe ++ s.th1_reader.held ++ s.queue_proc.queue_unsafe
    ++ s.th2_proc.held ++ s.queue_write.queue_unsafe ++ s.th3_writer.held

end Engine

/-- The payload size computed by `main`: `x_res * y_res * 3` in `unsigned int`
arithmetic, times `PAY_SIZE`. -/
def main_size_pay (x_res y_res : Nat) : Nat :=
  (x_res * y_res * 3) % 2 ^ 32 * PAY_SIZE

/-- The loop of `main` that marks all payloads as unused. -/
def main_seed (size_pay : Nat) : ThreadQ Nat :=
  (List.range BUFFER_SIZE).foldl (fun q i => q.push (i * size_pay)) ThreadQ.new

/-- The state `main` starts the three threads in. `heap` is the uninitialised
content of the `size_pay * BUFFER_SIZE` bytes returned by `malloc`, `lutd` the
table after `read_lutd`, `stdin` the whole of standard input. -/
def main (x_res y_res : Nat) (heap : Nat → Nat) (lutd stdin : List Nat) : Engine where
  size_pay := main_size_pay x_res y_res
  lutd := lutd
  buf_pay := (List.range (main_size_pay x_res y_res * BUFFER_SIZE)).map heap
  queue_read := main_seed (main_size_pay x_res y_res)
  queue_proc := ThreadQ.new
  queue_write := ThreadQ.new
  th1_reader := Stage.get
  th2_proc := Stage.get
  th3_writer := Stage.get
  cin := stdin
  cout := []

/-- The payload offsets `main` hands out. -/
def main_offsets (size_pay : Nat) : List Nat :=
  (List.range BUFFER_SIZE).map fun i => i * size_pay

/-! ## Notions used to state the properties of the engine -/

/-- The payloads of `size` bytes at `p` and at `q` do not overlap. -/
def Disj (size p q : Nat) : Prop := p + size ≤ q ∨ q + size ≤ p

namespace Engine

/-- The frame transform the processor applies to a payload. -/
def frame_tf (s : Engine) (f : List Nat) : List Nat := hdr_sdr f s.size_pay s.lutd

/-- The bytes of the payload at `pay`. -/
def payload (s : Engine) (pay : Nat) : List Nat := load s.buf_pay pay s.size_pay

/-- The frames written so far followed by what the payloads past the reader
will be written as, in the order in which the writer will meet them. -/
def flight (s : Engine) : List (List Nat) :=
  s.cout
    ++ (match s.th3_writer with
        | Stage.work pay => [s.payload pay]
        | _ => [])
    ++ s.queue_write.queue_unsafe.map s.payload
    ++ (match s.th2_proc with
        | Stage.get => []
        | Stage.work pay => [s.frame_tf (s.payload pay)]
        | Stage.put pay => [s.payload pay])
    ++ s.queue_proc.queue_unsafe.map (fun pay => s.frame_tf (s.payload pay))
    ++ (match s.th1_reader with
        | Stage.put pay => [s.frame_tf (s.payload pay)]
        | _ => [])

/-- The ownership invariant: the payload pointers in the engine are the ones
`main` handed out, each as often as it was handed out, and the allocation and
the parameters are the ones `main` set up. -/
structure Own (size : Nat) (s : Engine) : Prop where
  size_eq : s.size_pay = size
  length_eq : s.buf_pay.length = size * BUFFER_SIZE
  perm : (tokens s).Perm (main_offsets size)

/-- The flow invariant for the input `frames`: the reader has consumed `k`
whole frames, and the flight is their transforms followed by `extra` frames
that only exist once the input is exhausted. -/
def Flow (frames : List (List Nat)) (s : Engine) : Prop :=
  ∃ k extra, s.cin = (frames.drop k).flatten ∧
    s.flight = (frames.take k).map s.frame_tf ++ extra ∧
    (k < frames.length → extra = [])

/-- No thread holds a payload and only `queue_read` has any. -/
def Quiet (s : Engine) : Prop :=
  s.th1_reader = Stage.get ∧ s.th2_proc = Stage.get ∧ s.th3_writer = Stage.get ∧
    s.queue_proc.queue_unsafe = [] ∧ s.queue_write.queue_unsafe = []

/-- The schedule that takes one payload once round the three stages. -/
def cycle : List Action :=
  [Action.read_stdin_get, Action.read_stdin_do, Action.read_stdin_put,
   Action.proc_get, Action.proc_do, Action.proc_put,
   Action.write_stdout_get, Action.write_stdout_do, Action.write_stdout_put]

end Engine

/-! # Properties -/

/-! ### The LUT index -/

theorem LUTD_SIZE_eq : LUTD_SIZE = 50331648 := by decide

theorem lutd_index_eq (y u v c : Nat) :
    lutd_index y u v c = y + u * 256 + v * 65536 + c * 16777216 := by
  simp [lutd_index, ind_lutd, LUTD_Y_STRIDE, LUTD_U_STRIDE, LUTD_V_STRIDE, LUTD_C_STRIDE,
    LUTD_BITS, IMG_BITS, Nat.shiftLeft_eq]

theorem lutd_index_lt {y u v c : Nat} (hy : y < 256) (hu : u < 256) (hv : v < 256)
    (hc : c < 3) : lutd_index y u v c < LUTD_SIZE := by
  rw [lutd_index_eq, LUTD_SIZE_eq]; omega

theorem lutd_index_inj {y u v c y' u' v' c' : Nat}
    (hy : y < 256) (hu : u < 256) (hv : v < 256)
    (hy' : y' < 256) (hu' : u' < 256) (hv' : v' < 256)
    (h : lutd_index y u v c = lutd_index y' u' v' c') :
    y = y' ∧ u = u' ∧ v = v' ∧ c = c' := by
  rw [lutd_index_eq, lutd_index_eq] at h; omega

theorem lutd_index_surj {i : Nat} (hi : i < LUTD_SIZE) :
    ∃ y u v c, y < 256 ∧ u < 256 ∧ v < 256 ∧ c < 3 ∧ lutd_index y u v c = i := by
  rw [LUTD_SIZE_eq] at hi
  refine ⟨i % 256, i / 256 % 256, i / 65536 % 256, i / 16777216, ?_, ?_, ?_, ?_, ?_⟩
  · omega
  · omega
  · omega
  · omega
  · rw [lutd_index_eq]; omega


/-- C1. The LUT index `index(y,u,v,c) = y + u*2^8 + v*2^16 + c*2^24` formed by
the stride macros is a bijection from `{0..255}^3 x {0,1,2}` onto
`{0..50331647}`: every index is below `LUTD_SIZE = 256^3 * 3 = 50331648` and
below `2^31`, distinct `(y,u,v,c)` have distinct indices, and every table
position is the index of some `(y,u,v,c)`. -/
theorem lutd_index_bijection :
    LUTD_SIZE = 256 ^ 3 * 3 ∧ LUTD_SIZE = 50331648 ∧
    (∀ y u v c, y < 256 → u < 256 → v < 256 → c < 3 →
      lutd_index y u v c = y + u * 2 ^ 8 + v * 2 ^ 16 + c * 2 ^ 24 ∧
      lutd_index y u v c < LUTD_SIZE ∧ lutd_index y u v c < 2 ^ 31) ∧
    (∀ y u v c y' u' v' c', y < 256 → u < 256 → v < 256 → c < 3 →
      y' < 256 → u' < 256 → v' < 256 → c' < 3 →
      lutd_index y u v c = lutd_index y' u' v' c' → y = y' ∧ u = u' ∧ v = v' ∧ c = c') ∧
    (∀ i, i < LUTD_SIZE →
      ∃ y u v c, y < 256 ∧ u < 256 ∧ v < 256 ∧ c < 3 ∧ lutd_index y u v c = i) := by
  refine ⟨by decide, LUTD_SIZE_eq, ?_, ?_, ?_⟩
  · intro y u v c hy hu hv hc
    refine ⟨by rw [lutd_index_eq]; norm_num, lutd_index_lt hy hu hv hc, ?_⟩
    rw [lutd_index_eq]; norm_num; omega
  · intro y u v c y' u' v' c' hy hu hv _ hy' hu' hv' _ h
    exact lutd_index_inj hy hu hv hy' hu' hv' h
  · intro i hi; exact lutd_index_surj hi

/-- The index of the pixel `(16, 128, 128)` in the U cube, from C1. -/
theorem lutd_index_bijection_witness :
    lutd_index 16 128 128 1 = 16 + 128 * 2 ^ 8 + 128 * 2 ^ 16 + 1 * 2 ^ 24 ∧
      lutd_index 16 128 128 1 < LUTD_SIZE ∧ lutd_index 16 128 128 1 < 2 ^ 31 :=
  lutd_index_bijection.2.2.1 16 128 128 1 (by decide) (by decide) (by decide) (by decide)

/-! ### Loads and stores -/

theorem length_wr (m : List Nat) (i x : Nat) : (wr m i x).length = m.length := by
  simp [wr]

theorem rd_wr (m : List Nat) {i : Nat} (j x : Nat) (hi : i < m.length) :
    rd (wr m i x) j = if j = i then x else rd m j := by
  simp only [rd, wr, List.getD_eq_getElem?_getD, List.getElem?_set]
  by_cases h : i = j
  · subst h; simp [hi]
  · have h' : ¬ j = i := fun e => h e.symm
    simp [h, h']

theorem rd_wr3 (m : List Nat) {i0 i1 i2 : Nat} (a b c j : Nat)
    (h0 : i0 < m.length) (h1 : i1 < m.length) (h2 : i2 < m.length)
    (n01 : i0 ≠ i1) (n02 : i0 ≠ i2) (n12 : i1 ≠ i2) :
    rd (wr (wr (wr m i0 a) i1 b) i2 c) j
      = if j = i0 then a else if j = i1 then b else if j = i2 then c else rd m j := by
  rw [rd_wr _ _ _ (by simpa [length_wr] using h2), rd_wr _ _ _ (by simpa [length_wr] using h1),
    rd_wr _ _ _ h0]
  by_cases e0 : j = i0
  · subst e0; simp [n01, n02]
  · by_cases e1 : j = i1
    · subst e1; simp [n12, e0]
    · simp [e0, e1]

theorem ext_rd {m m' : List Nat} (hl : m.length = m'.length)
    (h : ∀ j, j < m.length → rd m j = rd m' j) : m = m' := by
  apply List.ext_getElem hl
  intro j h1 h2
  have := h j h1
  simpa [rd, List.getD_eq_getElem?_getD, List.getElem?_eq_getElem h1,
    List.getElem?_eq_getElem h2] using this

/-! ### The loop body of `gen_lutd` -/

theorem foldl_flatMap_eq {α β γ : Type} (f : γ → β → γ) (g : α → List β) (l : List α)
    (init : γ) :
    (l.flatMap g).foldl f init = l.foldl (fun acc a => (g a).foldl f acc) init := by
  induction l generalizing init with
  | nil => rfl
  | cons a l ih => simp [List.flatMap_cons, List.foldl_append, ih]

theorem gen_lutd_eq_sched (proc : PixelFn) (lutd : List Nat) :
    gen_lutd proc lutd = gen_lutd_sched proc gen_lutd_iters lutd := by
  simp [gen_lutd, gen_lutd_sched, gen_lutd_iters, foldl_flatMap_eq, List.foldl_map]

theorem mem_gen_lutd_iters (v u y : Nat) :
    (v, u, y) ∈ gen_lutd_iters ↔ v < 256 ∧ u < 256 ∧ y < 256 := by
  simp only [gen_lutd_iters, IMG_INT_MAX, IMG_BITS, List.mem_flatMap, List.mem_map,
    List.mem_range, Prod.mk.injEq]
  constructor
  · rintro ⟨a, ha, b, hb, c, hc, rfl, rfl, rfl⟩
    exact ⟨ha, hb, hc⟩
  · rintro ⟨h1, h2, h3⟩
    exact ⟨v, h1, u, h2, y, h3, rfl, rfl, rfl⟩

theorem length_proc_call (proc : PixelFn) (m : List Nat) (y u v : Nat) :
    (proc_call proc m y u v).length = m.length := by
  simp [proc_call, length_wr]

theorem length_gen_lutd_body (proc : PixelFn) (lutd : List Nat) (v u y : Nat) :
    (gen_lutd_body proc lutd v u y).length = lutd.length := by
  simp [gen_lutd_body, length_proc_call, length_wr]

theorem gen_lutd_body_eq (proc : PixelFn) (lutd : List Nat) (v u y : Nat) :
    gen_lutd_body proc lutd v u y
      = proc_call proc
          (wr (wr (wr lutd (lutd_index y u v 0) (y % 2 ^ 8)) (lutd_index y u v 1) (u % 2 ^ 8))
            (lutd_index y u v 2) (v % 2 ^ 8))
          (lutd_index y u v 0) (lutd_index y u v 1) (lutd_index y u v 2) := rfl

theorem rd_gen_lutd_body (proc : PixelFn) (lutd : List Nat) (hl : lutd.length = LUTD_SIZE)
    {v0 u0 y0 : Nat} (hv0 : v0 < 256) (hu0 : u0 < 256) (hy0 : y0 < 256)
    {y u v c : Nat} (hy : y < 256) (hu : u < 256) (hv : v < 256) (hc : c < 3) :
    rd (gen_lutd_body proc lutd v0 u0 y0) (lutd_index y u v c)
      = if (v, u, y) = (v0, u0, y0) then chan c (proc y0 u0 v0)
        else rd lutd (lutd_index y u v c) := by
  have h0 := lutd_index_lt hy0 hu0 hv0 (show 0 < 3 by omega)
  have h1 := lutd_index_lt hy0 hu0 hv0 (show 1 < 3 by omega)
  have h2 := lutd_index_lt hy0 hu0 hv0 (show 2 < 3 by omega)
  have e0 := lutd_index_eq y0 u0 v0 0
  have e1 := lutd_index_eq y0 u0 v0 1
  have e2 := lutd_index_eq y0 u0 v0 2
  have e := lutd_index_eq y u v c
  rw [← hl] at h0 h1 h2
  rw [gen_lutd_body_eq]
  generalize lutd_index y0 u0 v0 0 = i0 at *
  generalize lutd_index y0 u0 v0 1 = i1 at *
  generalize lutd_index y0 u0 v0 2 = i2 at *
  generalize lutd_index y u v c = j at *
  have hy0' : y0 % 2 ^ 8 = y0 := Nat.mod_eq_of_lt (by omega)
  have hu0' : u0 % 2 ^ 8 = u0 := Nat.mod_eq_of_lt (by omega)
  have hv0' : v0 % 2 ^ 8 = v0 := Nat.mod_eq_of_lt (by omega)
  have n01 : i0 ≠ i1 := by omega
  have n02 : i0 ≠ i2 := by omega
  have n12 : i1 ≠ i2 := by omega
  have l3 : (wr (wr (wr lutd i0 y0) i1 u0) i2 v0).length = lutd.length := by simp [length_wr]
  rw [hy0', hu0', hv0']
  unfold proc_call
  simp only []
  rw [rd_wr3 _ _ _ _ _ (l3 ▸ h0) (l3 ▸ h1) (l3 ▸ h2) n01 n02 n12]
  rw [rd_wr3 _ _ _ _ i0 h0 h1 h2 n01 n02 n12, rd_wr3 _ _ _ _ i1 h0 h1 h2 n01 n02 n12,
    rd_wr3 _ _ _ _ i2 h0 h1 h2 n01 n02 n12, rd_wr3 _ _ _ _ j h0 h1 h2 n01 n02 n12]
  simp only [if_true, n01.symm, n02.symm, n12.symm, if_false, chan, Prod.mk.injEq]
  by_cases hh : v = v0 ∧ u = u0 ∧ y = y0
  · rw [if_pos hh]
    obtain ⟨rfl, rfl, rfl⟩ := hh
    have hc' : c = 0 ∨ c = 1 ∨ c = 2 := by omega
    rcases hc' with rfl | rfl | rfl
    · have : j = i0 := by omega
      simp [this]
    · have : j = i1 := by omega
      simp [this, n01.symm]
    · have : j = i2 := by omega
      simp [this, n02.symm, n12.symm]
  · rw [if_neg hh]
    have a0 : j ≠ i0 := by omega
    have a1 : j ≠ i1 := by omega
    have a2 : j ≠ i2 := by omega
    simp [a0, a1, a2]

theorem length_gen_lutd_sched (proc : PixelFn) (order : List (Nat × Nat × Nat))
    (lutd : List Nat) : (gen_lutd_sched proc order lutd).length = lutd.length := by
  induction order generalizing lutd with
  | nil => rfl
  | cons t ts ih =>
    simp only [gen_lutd_sched, List.foldl_cons] at ih ⊢
    rw [ih, length_gen_lutd_body]

theorem rd_gen_lutd_sched (proc : PixelFn) (order : List (Nat × Nat × Nat))
    (hord : ∀ t ∈ order, t.1 < 256 ∧ t.2.1 < 256 ∧ t.2.2 < 256)
    (lutd : List Nat) (hl : lutd.length = LUTD_SIZE)
    {y u v c : Nat} (hy : y < 256) (hu : u < 256) (hv : v < 256) (hc : c < 3) :
    rd (gen_lutd_sched proc order lutd) (lutd_index y u v c)
      = if (v, u, y) ∈ order then chan c (proc y u v)
        else rd lutd (lutd_index y u v c) := by
  induction order generalizing lutd with
  | nil => simp [gen_lutd_sched]
  | cons t ts ih =>
    obtain ⟨v0, u0, y0⟩ := t
    have ht := hord (v0, u0, y0) (List.mem_cons_self _ _)
    have hts : ∀ t ∈ ts, t.1 < 256 ∧ t.2.1 < 256 ∧ t.2.2 < 256 :=
      fun t h => hord t (List.mem_cons_of_mem _ h)
    simp only [gen_lutd_sched, List.foldl_cons] at ih ⊢
    rw [ih hts _ (by rw [length_gen_lutd_body, hl])]
    rw [rd_gen_lutd_body proc lutd hl ht.1 ht.2.1 ht.2.2 hy hu hv hc]
    by_cases h1 : (v, u, y) ∈ ts
    · simp [h1]
    · by_cases h2 : (v, u, y) = (v0, u0, y0)
      · simp only [Prod.mk.injEq] at h2
        obtain ⟨rfl, rfl, rfl⟩ := h2
        simp
      · simp [h1, h2]

theorem gen_lutd_sched_perm (proc : PixelFn) {order order' : List (Nat × Nat × Nat)}
    (hp : order.Perm order')
    (hord : ∀ t ∈ order', t.1 < 256 ∧ t.2.1 < 256 ∧ t.2.2 < 256)
    (lutd : List Nat) (hl : lutd.length = LUTD_SIZE) :
    gen_lutd_sched proc order lutd = gen_lutd_sched proc order' lutd := by
  have hord1 : ∀ t ∈ order, t.1 < 256 ∧ t.2.1 < 256 ∧ t.2.2 < 256 :=
    fun t h => hord t (hp.mem_iff.mp h)
  apply ext_rd (by simp [length_gen_lutd_sched])
  intro j hj
  rw [length_gen_lutd_sched, hl] at hj
  obtain ⟨y, u, v, c, hy, hu, hv, hc, rfl⟩ := lutd_index_surj hj
  rw [rd_gen_lutd_sched proc order hord1 lutd hl hy hu hv hc,
    rd_gen_lutd_sched proc order' hord lutd hl hy hu hv hc]
  simp [hp.mem_iff]

theorem rd_gen_lutd (proc : PixelFn) (lutd : List Nat) (hl : lutd.length = LUTD_SIZE)
    {y u v c : Nat} (hy : y < 256) (hu : u < 256) (hv : v < 256) (hc : c < 3) :
    rd (gen_lutd proc lutd) (lutd_index y u v c) = chan c (proc y u v) := by
  have hmem : ∀ t ∈ gen_lutd_iters, t.1 < 256 ∧ t.2.1 < 256 ∧ t.2.2 < 256 := by
    rintro ⟨v, u, y⟩ h
    exact (mem_gen_lutd_iters v u y).mp h
  rw [gen_lutd_eq_sched, rd_gen_lutd_sched proc _ hmem lutd hl hy hu hv hc,
    if_pos ((mem_gen_lutd_iters v u y).mpr ⟨hv, hu, hy⟩)]

/-- C2. After `gen_lutd` has run on a table of `LUTD_SIZE` bytes, the entry at
`index(y,u,v,c)` is channel `c` of `proc` applied to `(y,u,v)`, for every
`(y,u,v)` in `{0..255}^3` and `c` in `{0,1,2}`, in particular for
`(16,128,128)`; the table keeps its size, and every position of it holds the
result of the one triplet it is the index of. -/
theorem gen_lutd_correct (proc : PixelFn) (lutd : List Nat) (hl : lutd.length = LUTD_SIZE) :
    (gen_lutd proc lutd).length = LUTD_SIZE ∧
    (∀ y u v c, y < 256 → u < 256 → v < 256 → c < 3 →
      rd (gen_lutd proc lutd) (lutd_index y u v c) = chan c (proc y u v)) ∧
    (∀ c, c < 3 →
      rd (gen_lutd proc lutd) (lutd_index 16 128 128 c) = chan c (proc 16 128 128)) ∧
    (∀ j, j < LUTD_SIZE → ∃ y u v c, y < 256 ∧ u < 256 ∧ v < 256 ∧ c < 3 ∧
      j = lutd_index y u v c ∧ rd (gen_lutd proc lutd) j = chan c (proc y u v)) := by
  have key : ∀ y u v c, y < 256 → u < 256 → v < 256 → c < 3 →
      rd (gen_lutd proc lutd) (lutd_index y u v c) = chan c (proc y u v) :=
    fun y u v c hy hu hv hc => rd_gen_lutd proc lutd hl hy hu hv hc
  refine ⟨by rw [gen_lutd_eq_sched, length_gen_lutd_sched, hl], key, ?_, ?_⟩
  · intro c hc
    exact key 16 128 128 c (by decide) (by decide) (by decide) hc
  · intro j hj
    obtain ⟨y, u, v, c, hy, hu, hv, hc, rfl⟩ := lutd_index_surj hj
    exact ⟨y, u, v, c, hy, hu, hv, hc, rfl, key y u v c hy hu hv hc⟩

/-- C2 at the zero-filled table and the transform that rotates the samples. -/
theorem gen_lutd_correct_witness :
    (List.replicate LUTD_SIZE 0).length = LUTD_SIZE ∧
      rd (gen_lutd (fun y u v => (v, y, u)) (List.replicate LUTD_SIZE 0))
        (lutd_index 16 128 128 0) = chan 0 (128, 16, 128) :=
  ⟨List.length_replicate _ _,
    (gen_lutd_correct (fun y u v => (v, y, u)) (List.replicate LUTD_SIZE 0)
      (List.length_replicate _ _)).2.1 16 128 128 0 (by decide) (by decide) (by decide)
      (by decide)⟩

/-- C4. The table `gen_lutd` produces does not depend on the order in which
the `(v,u,y)` iterations are executed: every permutation of the `256^3`
iterations, run on a table of `LUTD_SIZE` bytes, gives the table of the
program-order loops. -/
theorem gen_lutd_order_independent (proc : PixelFn) (lutd : List Nat)
    (hl : lutd.length = LUTD_SIZE) (order : List (Nat × Nat × Nat))
    (hp : order.Perm gen_lutd_iters) :
    gen_lutd_sched proc order lutd = gen_lutd proc lutd := by
  rw [gen_lutd_eq_sched]
  refine gen_lutd_sched_perm proc hp ?_ lutd hl
  rintro ⟨v, u, y⟩ h
  exact (mem_gen_lutd_iters v u y).mp h

/-- C4 at the iterations in reverse program order. -/
theorem gen_lutd_order_independent_witness :
    gen_lutd_iters.reverse.Perm gen_lutd_iters ∧
      gen_lutd_sched (fun y u v => (v, y, u)) gen_lutd_iters.reverse (List.replicate LUTD_SIZE 0)
        = gen_lutd (fun y u v => (v, y, u)) (List.replicate LUTD_SIZE 0) :=
  ⟨List.reverse_perm _,
    gen_lutd_order_independent (fun y u v => (v, y, u)) (List.replicate LUTD_SIZE 0)
      (List.length_replicate _ _) gen_lutd_iters.reverse (List.reverse_perm _)⟩

/-! ### Frame processing -/

theorem length_trans_lutd (pay : List Nat) (y u v : Nat) (lutd : List Nat) :
    (trans_lutd pay y u v lutd).length = pay.length := by
  simp [trans_lutd, length_wr]

theorem rd_trans_lutd (pay : List Nat) (s : Nat) (lutd : List Nat) (hlen : pay.length = 3 * s)
    {i0 : Nat} (hi0 : i0 < s) {i k : Nat} (hi : i < s) (hk : k < 3) :
    rd (trans_lutd pay (i0 + 0 * s) (i0 + 2 * s) (i0 + 1 * s) lutd) (i + k * s)
      = if i = i0 then lut_pixel pay s lutd i0 k else rd pay (i + k * s) := by
  unfold trans_lutd
  simp only []
  rw [rd_wr3 _ _ _ _ _ (by omega) (by omega) (by omega) (by omega) (by omega) (by omega)]
  have hk' : k = 0 ∨ k = 1 ∨ k = 2 := by omega
  by_cases h : i = i0
  · subst h
    rcases hk' with rfl | rfl | rfl
    · simp [lut_pixel]
    · have a : ¬ (i + 1 * s = i + 0 * s) := by omega
      have b : ¬ (i + 1 * s = i + 2 * s) := by omega
      simp only [a, b, if_false, if_true, lut_pixel]
      simp
    · have a : ¬ (i + 2 * s = i + 0 * s) := by omega
      simp only [a, if_false, if_true, lut_pixel]
      simp
  · have a : ¬ (i + k * s = i0 + 0 * s) := by
      rcases hk' with rfl | rfl | rfl <;> omega
    have b : ¬ (i + k * s = i0 + 2 * s) := by
      rcases hk' with rfl | rfl | rfl <;> omega
    have c : ¬ (i + k * s = i0 + 1 * s) := by
      rcases hk' with rfl | rfl | rfl <;> omega
    rw [if_neg a, if_neg b, if_neg c, if_neg h]

theorem lut_pixel_trans_lutd (pay : List Nat) (s : Nat) (lutd : List Nat)
    (hlen : pay.length = 3 * s) {i0 : Nat} (hi0 : i0 < s) {i : Nat} (hi : i < s)
    (hne : i ≠ i0) (k : Nat) :
    lut_pixel (trans_lutd pay (i0 + 0 * s) (i0 + 2 * s) (i0 + 1 * s) lutd) s lutd i k
      = lut_pixel pay s lutd i k := by
  have h0 := rd_trans_lutd pay s lutd hlen hi0 hi (show 0 < 3 by omega)
  have h1 := rd_trans_lutd pay s lutd hlen hi0 hi (show 1 < 3 by omega)
  have h2 := rd_trans_lutd pay s lutd hlen hi0 hi (show 2 < 3 by omega)
  rw [if_neg hne, show i + 0 * s = i by omega] at h0
  rw [if_neg hne, show i + 1 * s = i + s by omega] at h1
  rw [if_neg hne] at h2
  simp only [lut_pixel, h0, h1, h2]

theorem foldl_trans_lutd (s : Nat) (lutd : List Nat) (l : List Nat) (hnd : l.Nodup)
    (hl : ∀ i ∈ l, i < s) (pay : List Nat) (hlen : pay.length = 3 * s) :
    (l.foldl (fun pay i => trans_lutd pay (i + 0 * s) (i + 2 * s) (i + 1 * s) lutd) pay).length
        = 3 * s ∧
    ∀ i k, i < s → k < 3 →
      rd (l.foldl (fun pay i => trans_lutd pay (i + 0 * s) (i + 2 * s) (i + 1 * s) lutd) pay)
          (i + k * s)
        = if i ∈ l then lut_pixel pay s lutd i k else rd pay (i + k * s) := by
  induction l generalizing pay with
  | nil => simp [hlen]
  | cons i0 l ih =>
    have hi0 : i0 < s := hl i0 (List.mem_cons_self _ _)
    have hnd' := List.nodup_cons.mp hnd
    have hl' : ∀ i ∈ l, i < s := fun i h => hl i (List.mem_cons_of_mem _ h)
    have hlen1 : (trans_lutd pay (i0 + 0 * s) (i0 + 2 * s) (i0 + 1 * s) lutd).length = 3 * s := by
      rw [length_trans_lutd, hlen]
    obtain ⟨ih1, ih2⟩ := ih hnd'.2 hl' _ hlen1
    refine ⟨by simpa using ih1, ?_⟩
    intro i k hi hk
    simp only [List.foldl_cons]
    rw [ih2 i k hi hk]
    by_cases hm : i ∈ l
    · have hne : i ≠ i0 := fun e => hnd'.1 (e ▸ hm)
      rw [if_pos hm, if_pos (List.mem_cons_of_mem _ hm),
        lut_pixel_trans_lutd pay s lutd hlen hi0 hi hne]
    · rw [if_neg hm, rd_trans_lutd pay s lutd hlen hi0 hi hk]
      by_cases he : i = i0
      · subst he
        rw [if_pos rfl, if_pos (List.mem_cons_self _ _)]
      · rw [if_neg he, if_neg (by simp [he, hm])]

theorem hdr_sdr_eq (pay : List Nat) (size_pay : Nat) (lutd : List Nat) :
    hdr_sdr pay size_pay lutd
      = (List.range' 0 (size_pay / 3)).foldl (fun pay i =>
          trans_lutd pay (i + 0 * (size_pay / 3)) (i + 2 * (size_pay / 3))
            (i + 1 * (size_pay / 3)) lutd) pay := by
  simp only [hdr_sdr, PAY_SIZE, Nat.div_one]
  rw [show List.range 1 = [0] from rfl, List.foldl_cons, List.foldl_nil,
    show 0 * size_pay = 0 from Nat.zero_mul _]

theorem length_hdr_sdr (pay : List Nat) (size_pay : Nat) (lutd : List Nat) :
    (hdr_sdr pay size_pay lutd).length = pay.length := by
  rw [hdr_sdr_eq]
  generalize List.range' 0 (size_pay / 3) = l
  induction l generalizing pay with
  | nil => rfl
  | cons i l ih => rw [List.foldl_cons, ih, length_trans_lutd]

theorem rd_hdr_sdr (pay : List Nat) (s : Nat) (lutd : List Nat) (hlen : pay.length = 3 * s)
    {i k : Nat} (hi : i < s) (hk : k < 3) :
    rd (hdr_sdr pay (3 * s) lutd) (i + k * s) = lut_pixel pay s lutd i k := by
  rw [hdr_sdr_eq]
  have hs : 3 * s / 3 = s := by omega
  rw [hs]
  have := (foldl_trans_lutd s lutd (List.range' 0 s) (List.nodup_range' 0 s)
    (by intro i hi; simp [List.mem_range'_1] at hi; exact hi) pay hlen).2 i k hi hk
  rw [this]
  simp [List.mem_range'_1, hi]

/-- C3. For a frame buffer of `3*s` bytes and a LUT produced by `gen_lutd`,
`hdr_sdr` yields a buffer of the same length whose bytes at `i` (Y plane),
`i+s` (V plane) and `i+2s` (U plane) are the Y, V and U outputs of `proc`
applied to `(y, u, v) = (in[i], in[i+2s], in[i+s])`, for every `i < s`. -/
theorem hdr_sdr_eq_direct (proc : PixelFn) (lutd0 : List Nat) (hl : lutd0.length = LUTD_SIZE)
    (s : Nat) (pay : List Nat) (hlen : pay.length = 3 * s) (hb : ∀ i, i < 3 * s → rd pay i < 256) :
    (hdr_sdr pay (3 * s) (gen_lutd proc lutd0)).length = 3 * s ∧
    ∀ i, i < s →
      rd (hdr_sdr pay (3 * s) (gen_lutd proc lutd0)) i
        = (proc (rd pay i) (rd pay (i + 2 * s)) (rd pay (i + s))).1 ∧
      rd (hdr_sdr pay (3 * s) (gen_lutd proc lutd0)) (i + s)
        = (proc (rd pay i) (rd pay (i + 2 * s)) (rd pay (i + s))).2.2 ∧
      rd (hdr_sdr pay (3 * s) (gen_lutd proc lutd0)) (i + 2 * s)
        = (proc (rd pay i) (rd pay (i + 2 * s)) (rd pay (i + s))).2.1 := by
  refine ⟨by rw [length_hdr_sdr, hlen], ?_⟩
  intro i hi
  have g : ∀ c, rd pay i < 256 → rd pay (i + 2 * s) < 256 → rd pay (i + s) < 256 → c < 3 →
      rd (gen_lutd proc lutd0) (lutd_index (rd pay i) (rd pay (i + 2 * s)) (rd pay (i + s)) c)
        = chan c (proc (rd pay i) (rd pay (i + 2 * s)) (rd pay (i + s))) :=
    fun c hy hu hv hc => rd_gen_lutd proc lutd0 hl hy hu hv hc
  have by_ := hb i (by omega)
  have bu := hb (i + 2 * s) (by omega)
  have bv := hb (i + s) (by omega)
  have k0 := rd_hdr_sdr pay s (gen_lutd proc lutd0) hlen hi (show 0 < 3 by omega)
  have k1 := rd_hdr_sdr pay s (gen_lutd proc lutd0) hlen hi (show 1 < 3 by omega)
  have k2 := rd_hdr_sdr pay s (gen_lutd proc lutd0) hlen hi (show 2 < 3 by omega)
  rw [show i + 0 * s = i by omega] at k0
  rw [show i + 1 * s = i + s by omega] at k1
  have g0 := g 0 by_ bu bv (by omega)
  have g1 := g 1 by_ bu bv (by omega)
  have g2 := g 2 by_ bu bv (by omega)
  simp only [lutd_index] at g0 g1 g2
  refine ⟨?_, ?_, ?_⟩
  · rw [k0]; simpa [lut_pixel, chan] using g0
  · rw [k1]; simpa [lut_pixel, chan] using g2
  · rw [k2]; simpa [lut_pixel, chan] using g1

/-- C3 for the one-pixel frame `(16, 128, 128)`, the table built from the
zero-filled block and the transform that rotates the samples. -/
theorem hdr_sdr_eq_direct_witness :
    (List.replicate LUTD_SIZE 0).length = LUTD_SIZE ∧ [16, 128, 128].length = 3 * 1 ∧
      rd (hdr_sdr [16, 128, 128] (3 * 1)
        (gen_lutd (fun y u v => (v, y, u)) (List.replicate LUTD_SIZE 0))) 0 = 128 :=
  have hb : ∀ i, i < 3 * 1 → rd [16, 128, 128] i < 256 := by
    intro i hi
    have : i = 0 ∨ i = 1 ∨ i = 2 := by omega
    rcases this with rfl | rfl | rfl <;> decide
  ⟨List.length_replicate _ _, rfl,
    ((hdr_sdr_eq_direct (fun y u v => (v, y, u)) (List.replicate LUTD_SIZE 0)
      (List.length_replicate _ _) 1 [16, 128, 128] rfl hb).2 0 (by decide)).1⟩

/-! ### The pixel transform chain -/

namespace Gen

theorem IMG_INT_MAX_D_eq : IMG_INT_MAX_D = 255 := by
  have h : IMG_INT_MAX = 255 := by decide
  simp [IMG_INT_MAX_D, h]

/-- C6, as the code has it. For the input pixel `(y=16, u=128, v=128)` the
decode step `yuv_rgb` yields the normalized RGB triple
`(16/255, 16/255, 16/255)`: the chroma terms vanish and `c = y = 16` is not
offset, so the clamp leaves 16. -/
theorem yuv_rgb_16_128_128 : yuv_rgb 16 128 128 = (16 / 255, 16 / 255, 16 / 255) := by
  norm_num [yuv_rgb, clamp, IMG_INT_MAX_D_eq]

/-- C6 as stated fails: the decode of `(16, 128, 128)` is not `(0, 0, 0)`. -/
theorem yuv_rgb_16_128_128_not_black : yuv_rgb 16 128 128 ≠ (0, 0, 0) := by
  norm_num [yuv_rgb, clamp, IMG_INT_MAX_D_eq]

/-- C5 at the pixel `(y=0, u=128, v=128)`: `yuv_rgb` yields `(0, 0, 0)`, and
for a `pow` with `pow(0, 1/m2) = 0` the first argument of the outer `pow` of
`gam_pq_lin` is `-(c1/c2)`, which is negative, in each of the three channels. -/
theorem gam_pq_lin_base_black (pow : ℚ → ℚ → ℚ) (h0 : pow 0 (1 / m2) = 0) :
    yuv_rgb 0 128 128 = (0, 0, 0) ∧
    gam_pq_lin_base pow (yuv_rgb 0 128 128).1 = -(c1 / c2) ∧
    gam_pq_lin_base pow (yuv_rgb 0 128 128).1 < 0 ∧
    gam_pq_lin_base pow (yuv_rgb 0 128 128).2.1 < 0 ∧
    gam_pq_lin_base pow (yuv_rgb 0 128 128).2.2 < 0 := by
  have e : yuv_rgb 0 128 128 = (0, 0, 0) := by
    norm_num [yuv_rgb, clamp, IMG_INT_MAX_D_eq]
  have b : gam_pq_lin_base pow 0 = -(c1 / c2) := by
    simp only [gam_pq_lin_base, h0]
    norm_num [c1, c2, c3]
  have n : -(c1 / c2) < 0 := by norm_num [c1, c2]
  rw [e]
  exact ⟨rfl, b, b ▸ n, b ▸ n, b ▸ n⟩

/-- C5 at black for a stand-in that agrees with `pow` at the bases 0 and 1
(`pow(0, e) = 0`, `pow(1, e) = 1` for `e > 0`). -/
theorem gam_pq_lin_base_black_witness :
    (fun (x _ : ℚ) => if x = 0 then (0 : ℚ) else 1) 0 (1 / m2) = 0 ∧
      gam_pq_lin_base (fun x _ => if x = 0 then 0 else 1) (yuv_rgb 0 128 128).1 < 0 :=
  ⟨if_pos rfl,
    (gam_pq_lin_base_black (fun x _ => if x = 0 then 0 else 1) (if_pos rfl)).2.2.1⟩

end Gen

/-! ### `ThreadQ` -/

theorem qop_run_spec {T : Type} (ops : List (QOp T)) :
    ∀ (q r : ThreadQ T) (outs : List T), QOp.run ops q = some (r, outs) →
      q.queue_unsafe ++ QOp.pushed ops = outs ++ r.queue_unsafe ∧
      outs.length = QOp.pops ops := by
  induction ops with
  | nil =>
    intro q r outs h
    simp only [QOp.run, Option.some.injEq, Prod.mk.injEq] at h
    obtain ⟨rfl, rfl⟩ := h
    simp [QOp.pushed, QOp.pops]
  | cons op ops ih =>
    intro q r outs h
    cases op with
    | push v =>
      simp only [QOp.run] at h
      obtain ⟨h1, h2⟩ := ih _ _ _ h
      simp only [ThreadQ.push, List.append_assoc, List.singleton_append] at h1
      exact ⟨by simpa [QOp.pushed] using h1, by simpa [QOp.pops] using h2⟩
    | pop =>
      simp only [QOp.run, ThreadQ.pop] at h
      cases hq : q.queue_unsafe with
      | nil => simp [hq] at h
      | cons v rest =>
        simp only [hq] at h
        cases hr : QOp.run ops { queue_unsafe := rest } with
        | none => simp [hr] at h
        | some res =>
          obtain ⟨r1, outs1⟩ := res
          simp only [hr, Option.some.injEq, Prod.mk.injEq] at h
          obtain ⟨rfl, rfl⟩ := h
          obtain ⟨h1, h2⟩ := ih _ _ _ hr
          simp only at h1
          exact ⟨by simpa [QOp.pushed] using h1, by simp [QOp.pops, h2]⟩

/-- C7. `ThreadQ` is a FIFO on the list of its contents: `push(v)` always
succeeds and appends `v` at the back, leaving the earlier elements unchanged;
`pop` on a non-empty queue removes and returns the oldest element (and cannot
complete on an empty one); hence for every sequence of calls from the empty
queue in which no `pop` meets an empty queue, the values returned are, in
order, the first values pushed, one pushed value per call of `pop`, and the
rest is still in the queue. -/
theorem threadq_fifo {T : Type} :
    (∀ (q : ThreadQ T) (v : T), ThreadQ.queue_unsafe (q.push v) = q.queue_unsafe ++ [v]) ∧
    (∀ (q : ThreadQ T), q.queue_unsafe ≠ [] →
      ∃ v r, q.pop = some (v, r) ∧ q.queue_unsafe = v :: r.queue_unsafe) ∧
    (∀ (q : ThreadQ T), q.queue_unsafe = [] → q.pop = none) ∧
    (∀ (ops : List (QOp T)) (r : ThreadQ T) (outs : List T),
      QOp.run ops ThreadQ.new = some (r, outs) →
        outs ++ r.queue_unsafe = QOp.pushed ops ∧
        outs <+: QOp.pushed ops ∧
        outs = (QOp.pushed ops).take (QOp.pops ops)) := by
  refine ⟨fun _ _ => rfl, ?_, ?_, ?_⟩
  · intro q hq
    cases h : q.queue_unsafe with
    | nil => exact absurd h hq
    | cons v rest => exact ⟨v, ⟨rest⟩, by simp [ThreadQ.pop, h], rfl⟩
  · intro q hq
    simp [ThreadQ.pop, hq]
  · intro ops r outs h
    obtain ⟨h1, h2⟩ := qop_run_spec ops _ _ _ h
    simp only [ThreadQ.new, List.nil_append] at h1
    refine ⟨h1.symm, ⟨r.queue_unsafe, h1.symm⟩, ?_⟩
    rw [h1, ← h2, List.take_left]

/-- C7 on the calls push 7, push 8, pop, push 9, pop. -/
theorem threadq_fifo_witness :
    QOp.run [QOp.push 7, QOp.push 8, QOp.pop, QOp.push 9, QOp.pop] ThreadQ.new
        = some (⟨[9]⟩, [7, 8]) ∧
      [7, 8] = (QOp.pushed [QOp.push 7, QOp.push 8, QOp.pop, QOp.push 9, QOp.pop]).take
        (QOp.pops [QOp.push 7, QOp.push 8, QOp.pop, QOp.push 9, QOp.pop]) :=
  ⟨rfl, (threadq_fifo.2.2.2 [QOp.push 7, QOp.push 8, QOp.pop, QOp.push 9, QOp.pop] ⟨[9]⟩ [7, 8]
    rfl).2.2⟩

/-! ### Payload memory -/
theorem length_store (m : List Nat) (p : Nat) (d : List Nat) :
    (store m p d).length = m.length := by
  simp [store]

theorem length_load (m : List Nat) (p n : Nat) : (load m p n).length = n := by
  simp [load]

theorem rd_store (m : List Nat) (p : Nat) (d : List Nat) (a : Nat) :
    rd (store m p d) a
      = if a < m.length ∧ p ≤ a ∧ a < p + d.length then rd d (a - p) else rd m a := by
  simp only [rd, store, List.getD_eq_getElem?_getD, List.getElem?_mapIdx]
  by_cases h : a < m.length
  · simp only [List.getElem?_eq_getElem h, Option.map_some', Option.getD_some, h, true_and]
  · simp [h, List.getElem?_eq_none (Nat.le_of_not_lt h)]

theorem map_rd_range (d : List Nat) : (List.range d.length).map (rd d) = d := by
  apply List.ext_getElem (by simp)
  intro i h1 h2
  simp [rd, List.getD_eq_getElem?_getD, List.getElem?_eq_getElem h2]

theorem load_store_self (m : List Nat) (p : Nat) (d : List Nat) (h : p + d.length ≤ m.length) :
    load (store m p d) p d.length = d := by
  unfold load
  conv_rhs => rw [← map_rd_range d]
  apply List.map_congr_left
  intro k hk
  rw [List.mem_range] at hk
  rw [rd_store, if_pos ⟨by omega, by omega, by omega⟩]
  congr 1; omega

theorem load_store_disj (m : List Nat) (p : Nat) (d : List Nat) (q n : Nat)
    (h : q + n ≤ p ∨ p + d.length ≤ q) :
    load (store m p d) q n = load m q n := by
  unfold load
  apply List.map_congr_left
  intro k hk
  rw [List.mem_range] at hk
  rw [rd_store, if_neg (by omega)]

theorem store_nil (m : List Nat) (p : Nat) : store m p [] = m := by
  apply List.ext_getElem (length_store _ _ _)
  intro i h1 h2
  simp [store]

/-! ### Ownership -/

theorem pop_eq_some_iff {T : Type} (q r : ThreadQ T) (v : T) :
    q.pop = some (v, r) ↔ q.queue_unsafe = v :: r.queue_unsafe := by
  cases r with
  | mk rl =>
    cases h : q.queue_unsafe with
    | nil => simp [ThreadQ.pop, h]
    | cons a l => simp [ThreadQ.pop, h]

namespace Engine

theorem step_own_aux {s t : Engine} {a : Action} (h : s.step a = some t) :
    (tokens t).Perm (tokens s) ∧ t.size_pay = s.size_pay ∧ t.lutd = s.lutd ∧
      t.buf_pay.length = s.buf_pay.length := by
  cases a <;> simp only [step] at h <;> split at h <;>
    simp only [Option.some.injEq, reduceCtorEq] at h <;> subst h
  all_goals try (rename_i hpop; rw [pop_eq_some_iff] at hpop)
  all_goals refine ⟨?_, rfl, rfl, ?_⟩
  all_goals first
    | exact length_store _ _ _
    | rfl
    | (rw [List.perm_iff_count]; intro x
       simp only [tokens, Stage.held, ThreadQ.push, List.count_append, List.count_cons,
         List.count_nil, *]
       try omega)

theorem run_append (a b : List Action) (s : Engine) :
    run (a ++ b) s = (run a s).bind (run b) := by
  induction a generalizing s with
  | nil => rfl
  | cons x a ih =>
    simp only [List.cons_append, run]
    cases s.step x with
    | none => rfl
    | some t => exact ih t

theorem reachable_refl (s : Engine) : Reachable s s := ⟨[], rfl⟩

theorem reachable_run {s0 s t : Engine} (h : Reachable s0 s) (acts : List Action)
    (ht : run acts s = some t) : Reachable s0 t := by
  obtain ⟨a, ha⟩ := h
  exact ⟨a ++ acts, by rw [run_append, ha]; exact ht⟩

/-- An invariant of `step` that holds at the start holds in every reachable state. -/
theorem reachable_induct {P : Engine → Prop} {s0 s : Engine} (h : Reachable s0 s) (h0 : P s0)
    (hstep : ∀ s t a, P s → s.step a = some t → P t) : P s := by
  obtain ⟨acts, ha⟩ := h
  induction acts generalizing s0 with
  | nil =>
    simp only [Engine.run, Option.some.injEq] at ha
    exact ha ▸ h0
  | cons a acts ih =>
    simp only [Engine.run] at ha
    cases hs : s0.step a with
    | none => simp [hs] at ha
    | some t =>
      simp only [hs] at ha
      exact ih (hstep s0 t a h0 hs) ha

theorem own_step {n : Nat} {s t : Engine} {a : Action} (ho : Own n s)
    (h : s.step a = some t) : Own n t := by
  obtain ⟨h1, h2, h3, h4⟩ := step_own_aux h
  exact ⟨h2.trans ho.size_eq, h4.trans ho.length_eq, h1.trans ho.perm⟩

end Engine

theorem main_seed_eq (n : Nat) : ThreadQ.queue_unsafe (main_seed n) = main_offsets n := by
  rfl

theorem main_own (x_res y_res : Nat) (heap : Nat → Nat) (lutd stdin : List Nat) :
    Engine.Own (main_size_pay x_res y_res) (main x_res y_res heap lutd stdin) := by
  refine ⟨rfl, by simp [main], ?_⟩
  simp [Engine.tokens, main, Stage.held, ThreadQ.new, main_seed_eq]

theorem main_offsets_pairwise (n : Nat) : (main_offsets n).Pairwise (Disj n) := by
  simp only [main_offsets, List.pairwise_map]
  have : (List.range BUFFER_SIZE).Pairwise (· < ·) := List.pairwise_lt_range _
  refine this.imp ?_
  intro a b hab
  left
  calc a * n + n = (a + 1) * n := by ring
    _ ≤ b * n := Nat.mul_le_mul_right n hab

theorem main_offsets_bound (n : Nat) : ∀ p ∈ main_offsets n, p + n ≤ n * BUFFER_SIZE := by
  intro p hp
  simp only [main_offsets, List.mem_map, List.mem_range] at hp
  obtain ⟨i, hi, rfl⟩ := hp
  calc i * n + n = (i + 1) * n := by ring
    _ ≤ BUFFER_SIZE * n := Nat.mul_le_mul_right n hi
    _ = n * BUFFER_SIZE := Nat.mul_comm _ _

theorem disj_symm {n p q : Nat} (h : Disj n p q) : Disj n q p := Or.symm h

namespace Engine

theorem own_pairwise {n : Nat} {s : Engine} (ho : Own n s) : (tokens s).Pairwise (Disj n) :=
  ho.perm.symm.pairwise (main_offsets_pairwise n) disj_symm

theorem own_bound {n : Nat} {s : Engine} (ho : Own n s) :
    ∀ p ∈ tokens s, p + n ≤ s.buf_pay.length := by
  intro p hp
  rw [ho.length_eq]
  exact main_offsets_bound n p (ho.perm.mem_iff.mp hp)


theorem pairwise_sep {n : Nat} {l A B : List Nat} {p : Nat} (hl : l.Pairwise (Disj n))
    (h : l = A ++ p :: B) : ∀ q ∈ A ++ B, Disj n p q := by
  subst h
  rw [List.pairwise_middle disj_symm] at hl
  exact (List.pairwise_cons.mp hl).1

theorem flow_step_simple {frames : List (List Nat)} {s t : Engine}
    (hfl : Flow frames s) (h1 : t.size_pay = s.size_pay) (h2 : t.lutd = s.lutd)
    (h3 : t.cin = s.cin) (h4 : t.flight = s.flight) : Flow frames t := by
  obtain ⟨k, extra, hc, hf, hx⟩ := hfl
  refine ⟨k, extra, h3.trans hc, ?_, hx⟩
  have e : t.frame_tf = s.frame_tf := by
    funext f
    simp only [frame_tf, h1, h2]
  rw [h4, hf, e]

theorem flight_proc_do {n : Nat} {s t : Engine} (ho : Own n s) {pay : Nat}
    (hst : s.th2_proc = Stage.work pay)
    (ht : t = { s with
      buf_pay := store s.buf_pay pay (hdr_sdr (load s.buf_pay pay s.size_pay) s.size_pay s.lutd)
      th2_proc := Stage.put pay }) : t.flight = s.flight := by
  have hn := ho.size_eq
  have hsep := pairwise_sep (own_pairwise ho)
    (A := s.queue_read.queue_unsafe ++ s.th1_reader.held ++ s.queue_proc.queue_unsafe)
    (B := s.queue_write.queue_unsafe ++ s.th3_writer.held) (p := pay)
    (by simp [tokens, Stage.held, hst])
  have hb : pay + n ≤ s.buf_pay.length := own_bound ho pay (by simp [tokens, Stage.held, hst])
  have hdl : (hdr_sdr (load s.buf_pay pay s.size_pay) s.size_pay s.lutd).length = s.size_pay := by
    rw [length_hdr_sdr, length_load]
  have hT : t.frame_tf = s.frame_tf := by
    funext f; simp only [frame_tf, ht]
  have hP : ∀ q ∈ (s.queue_read.queue_unsafe ++ s.th1_reader.held ++ s.queue_proc.queue_unsafe)
      ++ (s.queue_write.queue_unsafe ++ s.th3_writer.held), t.payload q = s.payload q := by
    intro q hq
    have hd := hsep q hq
    simp only [payload, ht]
    apply load_store_disj
    rw [hdl, hn]
    exact hd.symm
  have hself : t.payload pay = s.frame_tf (s.payload pay) := by
    simp only [payload, ht, frame_tf]
    have := load_store_self s.buf_pay pay
      (hdr_sdr (load s.buf_pay pay s.size_pay) s.size_pay s.lutd) (by rw [hdl, hn]; exact hb)
    rw [hdl] at this
    exact this
  have hQW : s.queue_write.queue_unsafe.map t.payload = s.queue_write.queue_unsafe.map s.payload :=
    List.map_congr_left (fun q hq => hP q (by simp [hq]))
  have hQP : s.queue_proc.queue_unsafe.map (fun q => s.frame_tf (t.payload q))
      = s.queue_proc.queue_unsafe.map (fun q => s.frame_tf (s.payload q)) :=
    List.map_congr_left (fun q hq => by rw [hP q (by simp [hq])])
  have e1 : t.cout = s.cout := by rw [ht]
  have e2 : t.queue_write = s.queue_write := by rw [ht]
  have e3 : t.queue_proc = s.queue_proc := by rw [ht]
  have e4 : t.th1_reader = s.th1_reader := by rw [ht]
  have e5 : t.th3_writer = s.th3_writer := by rw [ht]
  have e6 : t.th2_proc = Stage.put pay := by rw [ht]
  unfold flight
  rw [e1, e2, e3, e4, e5, e6, hst, hT, hQW, hQP]
  simp only [hself]
  cases h3 : s.th3_writer <;> cases h1 : s.th1_reader <;> simp only [] <;>
    (repeat rw [hP _ (by simp [Stage.held, h1, h3])])

theorem flight_read_do {n : Nat} {s t : Engine} (ho : Own n s) {pay : Nat}
    (hst : s.th1_reader = Stage.work pay)
    (ht : t = { s with
      buf_pay := store s.buf_pay pay (s.cin.take s.size_pay)
      cin := s.cin.drop s.size_pay
      th1_reader := Stage.put pay }) :
    t.flight = s.flight ++ [s.frame_tf (t.payload pay)] := by
  have hn := ho.size_eq
  have hsep := pairwise_sep (own_pairwise ho)
    (A := s.queue_read.queue_unsafe)
    (B := s.queue_proc.queue_unsafe ++ s.th2_proc.held ++ s.queue_write.queue_unsafe
      ++ s.th3_writer.held) (p := pay)
    (by simp [tokens, Stage.held, hst])
  have hdl : (s.cin.take s.size_pay).length ≤ n := by
    rw [List.length_take, hn]; exact Nat.min_le_left _ _
  have hT : t.frame_tf = s.frame_tf := by
    funext f; simp only [frame_tf, ht]
  have hP : ∀ q ∈ s.queue_read.queue_unsafe ++ (s.queue_proc.queue_unsafe ++ s.th2_proc.held
      ++ s.queue_write.queue_unsafe ++ s.th3_writer.held), t.payload q = s.payload q := by
    intro q hq
    have hd := hsep q hq
    simp only [payload, ht]
    apply load_store_disj
    rcases hd with h | h
    · right; omega
    · left; omega
  have hQW : s.queue_write.queue_unsafe.map t.payload = s.queue_write.queue_unsafe.map s.payload :=
    List.map_congr_left (fun q hq => hP q (by simp [hq]))
  have hQP : s.queue_proc.queue_unsafe.map (fun q => s.frame_tf (t.payload q))
      = s.queue_proc.queue_unsafe.map (fun q => s.frame_tf (s.payload q)) :=
    List.map_congr_left (fun q hq => by rw [hP q (by simp [hq])])
  have e1 : t.cout = s.cout := by rw [ht]
  have e2 : t.queue_write = s.queue_write := by rw [ht]
  have e3 : t.queue_proc = s.queue_proc := by rw [ht]
  have e4 : t.th1_reader = Stage.put pay := by rw [ht]
  have e5 : t.th3_writer = s.th3_writer := by rw [ht]
  have e6 : t.th2_proc = s.th2_proc := by rw [ht]
  unfold flight
  rw [e1, e2, e3, e4, e5, e6, hst, hT, hQW, hQP]
  cases h3 : s.th3_writer <;> cases h2 : s.th2_proc <;>
    simp only [List.append_nil, List.append_assoc] <;>
    (repeat rw [hP _ (by simp [Stage.held, h2, h3])])

theorem flatten_drop_take {frames : List (List Nat)} {n k : Nat}
    (hfr : ∀ f ∈ frames, f.length = n) (hk : k < frames.length) :
    ((frames.drop k).flatten).take n = frames[k] ∧
      ((frames.drop k).flatten).drop n = (frames.drop (k + 1)).flatten := by
  have hl : frames[k].length = n := hfr _ (List.getElem_mem hk)
  rw [List.drop_eq_getElem_cons hk, List.flatten_cons]
  exact ⟨List.take_left' hl, List.drop_left' hl⟩

theorem flow_step {frames : List (List Nat)} {n : Nat} (hfr : ∀ f ∈ frames, f.length = n)
    {s t : Engine} {a : Action} (ho : Own n s) (hfl : Flow frames s)
    (h : s.step a = some t) : Flow frames t := by
  cases a <;> simp only [Engine.step] at h <;> split at h <;>
    simp only [Option.some.injEq, reduceCtorEq] at h <;> subst h
  · -- read_stdin_get
    rename_i pay q hst hpop
    rw [pop_eq_some_iff] at hpop
    refine flow_step_simple hfl rfl rfl rfl ?_
    simp [flight, payload, frame_tf, hst]
  · -- read_stdin_do
    rename_i pay hst
    have hfl2 := flight_read_do ho hst rfl
    have hb : pay + n ≤ s.buf_pay.length := own_bound ho pay (by simp [tokens, Stage.held, hst])
    obtain ⟨k, extra, hc, hf, hx⟩ := hfl
    by_cases hk : k < frames.length
    · obtain ⟨h1, h2⟩ := flatten_drop_take hfr hk
      have hl : frames[k].length = n := hfr _ (List.getElem_mem hk)
      refine ⟨k + 1, [], ?_, ?_, fun _ => rfl⟩
      · show s.cin.drop s.size_pay = _
        rw [hc, ho.size_eq, h2]
      · rw [hfl2, hf, hx hk]
        have hp : Engine.payload { s with
            buf_pay := store s.buf_pay pay (s.cin.take s.size_pay)
            cin := s.cin.drop s.size_pay
            th1_reader := Stage.put pay } pay = frames[k] := by
          simp only [payload]
          rw [hc, ho.size_eq, h1, ← hl]
          exact load_store_self _ _ _ (by rw [hl]; exact hb)
        rw [hp, List.take_succ, List.getElem?_eq_getElem hk]
        simp only [List.map_append, Option.toList, List.map_cons, List.map_nil, List.append_nil]
        rfl
    · have hd : frames.drop k = [] := List.drop_eq_nil_of_le (Nat.le_of_not_lt hk)
      have hc0 : s.cin = [] := by rw [hc, hd]; rfl
      refine ⟨k, extra ++ [s.frame_tf (s.payload pay)], ?_, ?_, fun h => absurd h hk⟩
      · show s.cin.drop s.size_pay = _
        rw [hc0, hd]; simp
      · rw [hfl2, hf]
        have hp : Engine.payload { s with
            buf_pay := store s.buf_pay pay (s.cin.take s.size_pay)
            cin := s.cin.drop s.size_pay
            th1_reader := Stage.put pay } pay = s.payload pay := by
          simp only [payload, hc0, List.take_nil, store_nil]
        rw [hp, List.append_assoc]
        rfl
  · rename_i pay hst
    refine flow_step_simple hfl rfl rfl rfl ?_
    simp [flight, payload, frame_tf, hst, ThreadQ.push]
  · rename_i pay q hst hpop
    rw [pop_eq_some_iff] at hpop
    refine flow_step_simple hfl rfl rfl rfl ?_
    simp [flight, payload, frame_tf, hst, hpop]
  · -- proc_do
    rename_i pay hst
    exact flow_step_simple hfl rfl rfl rfl (flight_proc_do ho hst rfl)
  · rename_i pay hst
    refine flow_step_simple hfl rfl rfl rfl ?_
    simp [flight, payload, frame_tf, hst, ThreadQ.push]
  · rename_i pay q hst hpop
    rw [pop_eq_some_iff] at hpop
    refine flow_step_simple hfl rfl rfl rfl ?_
    simp [flight, payload, frame_tf, hst, hpop]
  · rename_i pay hst
    refine flow_step_simple hfl rfl rfl rfl ?_
    simp [flight, payload, frame_tf, hst]
  · rename_i pay hst
    refine flow_step_simple hfl rfl rfl rfl ?_
    simp [flight, payload, frame_tf, hst]

end Engine

/-! ### Consequences of the flow invariant -/

namespace Engine

theorem main_flow (x_res y_res : Nat) (heap : Nat → Nat) (lutd : List Nat)
    (frames : List (List Nat)) : Flow frames (main x_res y_res heap lutd frames.flatten) :=
  ⟨0, [], rfl, rfl, fun _ => rfl⟩

theorem reachable_inv {x_res y_res : Nat} {heap : Nat → Nat} {lutd : List Nat}
    {frames : List (List Nat)} (hfr : ∀ f ∈ frames, f.length = main_size_pay x_res y_res)
    {s : Engine} (hr : Reachable (main x_res y_res heap lutd frames.flatten) s) :
    Own (main_size_pay x_res y_res) s ∧ s.lutd = lutd ∧ Flow frames s := by
  refine reachable_induct hr (P := fun s => Own (main_size_pay x_res y_res) s ∧ s.lutd = lutd ∧ Flow frames s)
    ⟨main_own _ _ _ _ _, rfl, main_flow _ _ _ _ _⟩ ?_
  intro s t a ⟨ho, hl, hf⟩ h
  exact ⟨own_step ho h, (step_own_aux h).2.2.1.trans hl, flow_step hfr ho hf h⟩

theorem cout_prefix_flight (s : Engine) : s.cout <+: s.flight := by
  unfold flight
  simp only [List.append_assoc]
  exact List.prefix_append _ _

theorem flow_cout_take {frames : List (List Nat)} {s : Engine} (hf : Flow frames s) :
    s.cout.take frames.length <+: frames.map s.frame_tf := by
  obtain ⟨k, extra, _, hfl, hx⟩ := hf
  have hp := cout_prefix_flight s
  rw [hfl] at hp
  by_cases hk : k < frames.length
  · rw [hx hk, List.append_nil] at hp
    exact (List.take_prefix _ _).trans (hp.trans ((List.take_prefix _ _).map _))
  · rw [List.take_of_length_le (Nat.le_of_not_lt hk)] at hp
    have := hp.take frames.length
    rwa [List.take_left' (by simp)] at this

theorem cycle_quiet {s : Engine} (hq : Quiet s) (hne : s.queue_read.queue_unsafe ≠ []) :
    ∃ t, run cycle s = some t ∧ Quiet t ∧ t.queue_read.queue_unsafe ≠ [] ∧
      t.cout.length = s.cout.length + 1 := by
  obtain ⟨sz, lutd, buf, ⟨qr⟩, ⟨qp⟩, ⟨qw⟩, t1, t2, t3, cin, cout⟩ := s
  obtain ⟨h1, h2, h3, h4, h5⟩ := hq
  simp only at h1 h2 h3 h4 h5 hne
  subst h1 h2 h3 h4 h5
  cases qr with
  | nil => exact absurd rfl hne
  | cons p rest =>
    refine ⟨_, rfl, ?_⟩
    simp [Quiet, ThreadQ.push]

/-- The schedule of `k` cycles in a row. -/
theorem cycles_quiet (k : Nat) : ∀ {s : Engine}, Quiet s → s.queue_read.queue_unsafe ≠ [] →
    ∃ t, run (List.replicate k cycle).flatten s = some t ∧ Quiet t ∧
      t.queue_read.queue_unsafe ≠ [] ∧ t.cout.length = s.cout.length + k := by
  induction k with
  | zero =>
    intro s hq hne
    exact ⟨s, rfl, hq, hne, rfl⟩
  | succ k ih =>
    intro s hq hne
    obtain ⟨t, ht, hqt, hnet, hlt⟩ := cycle_quiet hq hne
    obtain ⟨u, hu, hqu, hneu, hlu⟩ := ih hqt hnet
    refine ⟨u, ?_, hqu, hneu, by rw [hlu, hlt]; omega⟩
    rw [List.replicate_succ, List.flatten_cons, run_append, ht]
    exact hu

theorem main_quiet (x_res y_res : Nat) (heap : Nat → Nat) (lutd stdin : List Nat) :
    Quiet (main x_res y_res heap lutd stdin) ∧
      (main x_res y_res heap lutd stdin).queue_read.queue_unsafe ≠ [] := by
  refine ⟨⟨rfl, rfl, rfl, rfl, rfl⟩, ?_⟩
  show ThreadQ.queue_unsafe (main_seed _) ≠ []
  rw [main_seed_eq]
  simp [main_offsets, BUFFER_SIZE, List.range_succ]

/-- After `k` cycles from the start exactly `k` payloads have been written. -/
theorem main_cycles (x_res y_res : Nat) (heap : Nat → Nat) (lutd stdin : List Nat) (k : Nat) :
    ∃ t, run (List.replicate k cycle).flatten (main x_res y_res heap lutd stdin) = some t ∧
      t.cout.length = k := by
  obtain ⟨hq, hne⟩ := main_quiet x_res y_res heap lutd stdin
  obtain ⟨t, ht, _, _, hl⟩ := cycles_quiet k hq hne
  exact ⟨t, ht, by rw [hl]; simp [main]⟩

end Engine

/-! ### The streaming engine: ownership, order, output -/

/-- C9. Buffer single-ownership: `main` seeds `queue_read` with the 16 offsets
`i*size_pay` of one allocation of `16*size_pay` bytes, which lie inside it and
do not overlap pairwise, and starts the threads with nothing else anywhere;
in every reachable state the payload pointers found in the three queues and
the three threads are a rearrangement of these 16, so none is duplicated,
lost or created (for a non-empty payload each of the 16 occurs exactly once),
and the allocation is still `16*size_pay` bytes long. -/
theorem buffer_single_ownership (x_res y_res : Nat) (heap : Nat → Nat) (lutd stdin : List Nat) :
    (main x_res y_res heap lutd stdin).queue_read.queue_unsafe
      = (List.range 16).map (fun i => i * main_size_pay x_res y_res) ∧
    (main x_res y_res heap lutd stdin).queue_proc.queue_unsafe = [] ∧
    (main x_res y_res heap lutd stdin).queue_write.queue_unsafe = [] ∧
    (main x_res y_res heap lutd stdin).th1_reader.held = [] ∧
    (main x_res y_res heap lutd stdin).th2_proc.held = [] ∧
    (main x_res y_res heap lutd stdin).th3_writer.held = [] ∧
    (main x_res y_res heap lutd stdin).buf_pay.length = 16 * main_size_pay x_res y_res ∧
    (∀ i j, i < 16 → j < 16 → i ≠ j →
      Disj (main_size_pay x_res y_res) (i * main_size_pay x_res y_res)
        (j * main_size_pay x_res y_res)) ∧
    (∀ i, i < 16 →
      i * main_size_pay x_res y_res + main_size_pay x_res y_res
        ≤ 16 * main_size_pay x_res y_res) ∧
    (∀ s, Engine.Reachable (main x_res y_res heap lutd stdin) s →
      s.tokens.Perm ((List.range 16).map (fun i => i * main_size_pay x_res y_res)) ∧
      s.tokens.length = 16 ∧
      s.tokens.Pairwise (Disj (main_size_pay x_res y_res)) ∧
      (0 < main_size_pay x_res y_res →
        ∀ i, i < 16 → s.tokens.count (i * main_size_pay x_res y_res) = 1) ∧
      s.buf_pay.length = 16 * main_size_pay x_res y_res) := by
  have hdisj : ∀ i j, i < j →
      i * main_size_pay x_res y_res + main_size_pay x_res y_res
        ≤ j * main_size_pay x_res y_res := by
    intro i j hij
    calc i * main_size_pay x_res y_res + main_size_pay x_res y_res
        = (i + 1) * main_size_pay x_res y_res := by ring
      _ ≤ j * main_size_pay x_res y_res := Nat.mul_le_mul_right _ hij
  refine ⟨main_seed_eq _, rfl, rfl, rfl, rfl, rfl, ?_, ?_, ?_, ?_⟩
  · simp [main, BUFFER_SIZE, Nat.mul_comm]
  · intro i j _ _ hij
    rcases Nat.lt_or_gt_of_ne hij with h | h
    · exact Or.inl (hdisj i j h)
    · exact Or.inr (hdisj j i h)
  · intro i hi
    exact hdisj i 16 hi
  · intro s hr
    have ho : Engine.Own (main_size_pay x_res y_res) s :=
      Engine.reachable_induct hr (main_own _ _ _ _ _) (fun _ _ _ h hs => Engine.own_step h hs)
    have hperm : s.tokens.Perm ((List.range 16).map (fun i => i * main_size_pay x_res y_res)) :=
      ho.perm
    refine ⟨hperm, by rw [hperm.length_eq]; simp, Engine.own_pairwise ho, ?_, ?_⟩
    · intro hn i hi
      have hnd : s.tokens.Nodup := by
        refine (Engine.own_pairwise ho).imp ?_
        intro a b hab hne
        subst hne
        rcases hab with h | h <;> omega
      exact List.count_eq_one_of_mem hnd
        (hperm.mem_iff.mpr (List.mem_map.mpr ⟨i, List.mem_range.mpr hi, rfl⟩))
    · rw [ho.length_eq, BUFFER_SIZE, Nat.mul_comm]

/-- C9 for 2x1 frames after one payload has gone round the three stages. -/
theorem buffer_single_ownership_witness :
    ∃ t, Engine.run Engine.cycle
        (main 2 1 (fun _ => 0) (List.replicate LUTD_SIZE 0) [16, 16, 128, 128, 128, 128]) = some t ∧
      t.tokens.Perm ((List.range 16).map (fun i => i * main_size_pay 2 1)) := by
  obtain ⟨t, ht, _⟩ := Engine.main_cycles 2 1 (fun _ => 0) (List.replicate LUTD_SIZE 0)
    [16, 16, 128, 128, 128, 128] 1
  have e : (List.replicate 1 Engine.cycle).flatten = Engine.cycle := rfl
  rw [e] at ht
  exact ⟨t, ht, ((buffer_single_ownership 2 1 (fun _ => 0) (List.replicate LUTD_SIZE 0)
    [16, 16, 128, 128, 128, 128]).2.2.2.2.2.2.2.2.2 t ⟨Engine.cycle, ht⟩).1⟩

/-- C8, as the code has it. Fed an input stream of `M` whole frames, in every
reachable state the frames written so far, cut off after the first `M`, are in
order the frame transform (`hdr_sdr`) of a prefix of the input frames: the
`i`-th frame written is the transform of the `i`-th input frame for every
`i < M`, so the input frames appear in the output in the same order. -/
theorem pipeline_order (x_res y_res : Nat) (heap : Nat → Nat) (lutd : List Nat)
    (frames : List (List Nat)) (hfr : ∀ f ∈ frames, f.length = main_size_pay x_res y_res)
    (s : Engine) (hr : Engine.Reachable (main x_res y_res heap lutd frames.flatten) s) :
    s.cout.take frames.length
        <+: frames.map (fun f => hdr_sdr f (main_size_pay x_res y_res) lutd) ∧
    ∀ i, i < frames.length → i < s.cout.length →
      s.cout[i]? = (frames[i]?).map (fun f => hdr_sdr f (main_size_pay x_res y_res) lutd) := by
  obtain ⟨ho, hl, hf⟩ := Engine.reachable_inv hfr hr
  have hT : s.frame_tf = fun f => hdr_sdr f (main_size_pay x_res y_res) lutd := by
    funext f
    simp only [Engine.frame_tf, ho.size_eq, hl]
  have hp := Engine.flow_cout_take hf
  rw [hT] at hp
  refine ⟨hp, ?_⟩
  intro i hi hic
  obtain ⟨r, hr⟩ := hp
  have h1 : (s.cout.take frames.length)[i]? = s.cout[i]? := by
    rw [List.getElem?_take]; simp [hi]
  have h2 : i < (s.cout.take frames.length).length := by
    rw [List.length_take]; omega
  rw [← h1, ← List.getElem?_map, ← hr, List.getElem?_append_left h2]

/-- C8 as stated fails: with one 2x1 frame on standard input, after two
cycles of the three stages the frames written are not the transform of any
prefix of the input. -/
theorem pipeline_order_counterexample :
    ∃ t, Engine.run (Engine.cycle ++ Engine.cycle)
        (main 2 1 (fun _ => 0) (List.replicate LUTD_SIZE 0) [16, 16, 128, 128, 128, 128]) = some t ∧
      ¬ ∃ k, t.cout = (([[16, 16, 128, 128, 128, 128]] : List (List Nat)).take k).map
        (fun f => hdr_sdr f (main_size_pay 2 1) (List.replicate LUTD_SIZE 0)) := by
  obtain ⟨t, ht, hl⟩ := Engine.main_cycles 2 1 (fun _ => 0) (List.replicate LUTD_SIZE 0)
    [16, 16, 128, 128, 128, 128] 2
  have e : (List.replicate 2 Engine.cycle).flatten = Engine.cycle ++ Engine.cycle := rfl
  rw [e] at ht
  refine ⟨t, ht, ?_⟩
  rintro ⟨k, hk⟩
  have := congrArg List.length hk
  rw [hl, List.length_map, List.length_take] at this
  simp at this
  omega

/-- C8 for one 2x1 frame after one cycle of the three stages. -/
theorem pipeline_order_witness :
    (∀ f ∈ ([[16, 16, 128, 128, 128, 128]] : List (List Nat)), f.length = main_size_pay 2 1) ∧
    ∃ t, Engine.run Engine.cycle
        (main 2 1 (fun _ => 0) (List.replicate LUTD_SIZE 0) [16, 16, 128, 128, 128, 128]) = some t ∧
      t.cout.take 1 <+: ([[16, 16, 128, 128, 128, 128]] : List (List Nat)).map
        (fun f => hdr_sdr f (main_size_pay 2 1) (List.replicate LUTD_SIZE 0)) := by
  have hfr : ∀ f ∈ ([[16, 16, 128, 128, 128, 128]] : List (List Nat)),
      f.length = main_size_pay 2 1 := by
    intro f hf
    rw [List.mem_singleton] at hf
    subst hf
    decide
  obtain ⟨t, ht, _⟩ := Engine.main_cycles 2 1 (fun _ => 0) (List.replicate LUTD_SIZE 0)
    [16, 16, 128, 128, 128, 128] 1
  have e : (List.replicate 1 Engine.cycle).flatten = Engine.cycle := rfl
  rw [e] at ht
  exact ⟨hfr, t, ht, (pipeline_order 2 1 (fun _ => 0) (List.replicate LUTD_SIZE 0)
    [[16, 16, 128, 128, 128, 128]] hfr t ⟨Engine.cycle, ht⟩).1⟩

/-- C10, as the code has it. For an input stream of exactly `M` whole frames
the output starts with the `M` transformed frames: a state in which exactly
they have been written is reachable, and in every reachable state in which
`M` or more frames have been written the first `M` of them are the transforms
of the `M` input frames, byte for byte. The stage loops have no end-of-input
test, so nothing bounds the number of frames written by `M`. -/
theorem stream_output (x_res y_res : Nat) (heap : Nat → Nat) (lutd : List Nat)
    (frames : List (List Nat)) (hfr : ∀ f ∈ frames, f.length = main_size_pay x_res y_res) :
    (∃ s, Engine.Reachable (main x_res y_res heap lutd frames.flatten) s ∧
      s.cout = frames.map (fun f => hdr_sdr f (main_size_pay x_res y_res) lutd)) ∧
    (∀ s, Engine.Reachable (main x_res y_res heap lutd frames.flatten) s →
      frames.length ≤ s.cout.length →
        s.cout.take frames.length
          = frames.map (fun f => hdr_sdr f (main_size_pay x_res y_res) lutd) ∧
        (frames.map (fun f => hdr_sdr f (main_size_pay x_res y_res) lutd)).flatten
          <+: s.cout.flatten) := by
  have key : ∀ s, Engine.Reachable (main x_res y_res heap lutd frames.flatten) s →
      frames.length ≤ s.cout.length →
        s.cout.take frames.length
          = frames.map (fun f => hdr_sdr f (main_size_pay x_res y_res) lutd) := by
    intro s hr hlen
    obtain ⟨ho, hl, hf⟩ := Engine.reachable_inv hfr hr
    have hT : s.frame_tf = fun f => hdr_sdr f (main_size_pay x_res y_res) lutd := by
      funext f
      simp only [Engine.frame_tf, ho.size_eq, hl]
    have hp := Engine.flow_cout_take hf
    rw [hT] at hp
    exact hp.eq_of_length (by rw [List.length_take, List.length_map]; omega)
  constructor
  · obtain ⟨t, ht, hl⟩ := Engine.main_cycles x_res y_res heap lutd frames.flatten frames.length
    have hr : Engine.Reachable (main x_res y_res heap lutd frames.flatten) t := ⟨_, ht⟩
    refine ⟨t, hr, ?_⟩
    rw [← key t hr (by omega), List.take_of_length_le (by omega)]
  · intro s hr hlen
    have h := key s hr hlen
    refine ⟨h, ?_⟩
    rw [← h]
    conv_rhs => rw [← List.take_append_drop frames.length s.cout, List.flatten_append]
    exact List.prefix_append _ _

/-- C10 for one 1x1 frame. -/
theorem stream_output_witness :
    (∀ f ∈ ([[16, 128, 128]] : List (List Nat)), f.length = main_size_pay 1 1) ∧
    ∃ s, Engine.Reachable
        (main 1 1 (fun _ => 0) (List.replicate LUTD_SIZE 0) ([[16, 128, 128]] : List (List Nat)).flatten) s ∧
      s.cout = ([[16, 128, 128]] : List (List Nat)).map
        (fun f => hdr_sdr f (main_size_pay 1 1) (List.replicate LUTD_SIZE 0)) :=
  have hfr : ∀ f ∈ ([[16, 128, 128]] : List (List Nat)), f.length = main_size_pay 1 1 := by
    intro f hf
    rw [List.mem_singleton] at hf
    subst hf
    decide
  ⟨hfr, (stream_output 1 1 (fun _ => 0) (List.replicate LUTD_SIZE 0) [[16, 128, 128]] hfr).1⟩

/-- C10 as stated fails: with one 1x1 frame on standard input, after two
cycles of the three stages two frames have been written. -/
theorem stream_output_counterexample :
    ∃ t, Engine.run (Engine.cycle ++ Engine.cycle)
        (main 1 1 (fun _ => 0) (List.replicate LUTD_SIZE 0) [16, 128, 128]) = some t ∧
      ([[16, 128, 128]] : List (List Nat)).length < t.cout.length := by
  obtain ⟨t, ht, hl⟩ := Engine.main_cycles 1 1 (fun _ => 0) (List.replicate LUTD_SIZE 0)
    [16, 128, 128] 2
  have e : (List.replicate 2 Engine.cycle).flatten = Engine.cycle ++ Engine.cycle := rfl
  rw [e] at ht
  exact ⟨t, ht, by rw [hl]; decide⟩

/-! ### The tone-map curve -/

namespace Gen

theorem tm_cool_eq (v : ℚ) :
    tm_cool v
      = (150 * v * (15 / 100 * (150 * v) + 1 / 20) + 1 / 250)
          / (150 * v * (15 / 100 * (150 * v) + 1 / 2) + 3 / 50) - 1 / 15 := by
  simp only [tm_cool]
  norm_num
  ring_nf

theorem tm_cool_den_pos {v : ℚ} (hv : 0 ≤ v) :
    0 < 150 * v * (15 / 100 * (150 * v) + 1 / 2) + 3 / 50 := by
  have h1 : 0 ≤ 150 * v := by positivity
  have h2 : 0 ≤ 150 * v * (15 / 100 * (150 * v) + 1 / 2) := by positivity
  linarith

/-- C11. The tone-map curve `tm_cool`, read over the rationals, maps 0 to
exactly 0 and every non-negative `v` into `[0, 1 - E/F) = [0, 14/15)`: with
`x = 150*v` the denominator `x*(A*x+B)+D*F` is strictly positive, and
`(x*(A*x+C*B)+D*E)/(x*(A*x+B)+D*F) - E/F` is at least 0 and strictly below
`14/15`, hence below 1. -/
theorem tm_cool_range (v : ℚ) (hv : 0 ≤ v) :
    tm_cool 0 = 0 ∧
    (1 : ℚ) - 0.02 / 0.30 = 14 / 15 ∧
    0 < (150.0 * v) * (0.15 * (150.0 * v) + 0.50) + 0.20 * 0.30 ∧
    tm_cool v
      = ((150.0 * v) * (0.15 * (150.0 * v) + 0.10 * 0.50) + 0.20 * 0.02)
          / ((150.0 * v) * (0.15 * (150.0 * v) + 0.50) + 0.20 * 0.30) - 0.02 / 0.30 ∧
    0 ≤ tm_cool v ∧ tm_cool v < 14 / 15 ∧ tm_cool v < 1 := by
  have hd := tm_cool_den_pos hv
  have h1 : 0 ≤ 150 * v := by positivity
  have hge : 0 ≤ tm_cool v := by
    rw [tm_cool_eq, sub_nonneg, div_le_div_iff₀ (by norm_num) hd]
    nlinarith [mul_nonneg h1 h1]
  have hlt : tm_cool v < 14 / 15 := by
    rw [tm_cool_eq, sub_lt_iff_lt_add, div_lt_iff₀ hd]
    nlinarith [mul_nonneg h1 h1]
  refine ⟨?_, by norm_num, ?_, ?_, hge, hlt, by linarith⟩
  · rw [tm_cool_eq]; norm_num
  · have : (150.0 * v) * (0.15 * (150.0 * v) + 0.50) + 0.20 * 0.30
        = 150 * v * (15 / 100 * (150 * v) + 1 / 2) + 3 / 50 := by norm_num
    rw [this]; exact hd
  · rw [tm_cool_eq]; norm_num

/-- C11 at the linear-light value 1. -/
theorem tm_cool_range_witness :
    (0 : ℚ) ≤ 1 ∧ 0 ≤ tm_cool 1 ∧ tm_cool 1 < 14 / 15 :=
  ⟨zero_le_one, (tm_cool_range 1 zero_le_one).2.2.2.2.1, (tm_cool_range 1 zero_le_one).2.2.2.2.2.1⟩

end Gen

end FastHdr
